import Mathlib

/-!
Shallow embedding of the replica placement planner in
`src/clustering/administration/tables/generate_config.cc` (RethinkDB).

Conventions of the embedding:
* `name_string_t` is `String`; a `std::set<name_string_t>` is represented as a
  sorted duplicate-free `List String` (its iteration order), and a `std::map`
  as an association list in key order with duplicate-free keys.
* `double` is modelled as `ℚ`: the only doubles that occur are small integer
  costs and the estimator's exact mean of integer costs.
* `std::multiset` is a `List` kept sorted by the comparator; insertion happens
  at the upper bound (after all equivalent elements), which matches C++
  multiset iteration and tie-breaking semantics; `begin` is the list head.
* The planner's out-parameter `config_out` is threaded explicitly; a
  `guarantee` failure (process abort in C++) is the `crash` result, and the
  dereference of `begin()` of an empty multiset inside `pick_best_pairings`
  (undefined behaviour in C++) is modelled as `none`.
* The cooperative yielder and the interruptor only suspend or cancel the
  computation; they do not affect the computed values and are omitted.
-/

abbrev name_string_t := String

/-- `table_id` values; `nil_uuid` is the "new table" sentinel. -/
def nil_uuid : Nat := 0

/-- Modelled from the spec: a `KeyRange` / hash-region of the key space, kept
abstract as a half-open interval `[lo, hi)` of an ordered key space mapped to
`Nat`.  The region algebra (`region_intersection`, `region_is_empty`,
`region_map_t`) is not part of this source file; the model follows the spec's
description of key ranges owned by shards. -/
structure region_t where
  lo : Nat
  hi : Nat
deriving DecidableEq, Repr

def region_is_empty (r : region_t) : Bool :=
  r.hi ≤ r.lo

def region_intersection (a b : region_t) : region_t :=
  ⟨max a.lo b.lo, min a.hi b.hi⟩

/-- Modelled from the spec: the parts of region `r` not covered by `s`
(at most two intervals), used by `region_map_set` below. -/
def region_subtract (r s : region_t) : List region_t :=
  (if r.lo < s.lo then [⟨r.lo, min r.hi s.lo⟩] else []) ++
    (if s.hi < r.hi then [⟨max r.lo s.hi, r.hi⟩] else [])

/-- Modelled from the spec: a `region_map_t<double>` is a piecewise-constant
map, held as a list of (region, value) pieces covering the domain. -/
def region_map_init (r : region_t) (v : ℚ) : List (region_t × ℚ) :=
  [(r, v)]

/-- Modelled from the spec: `region_map_t::set` overwrites the sub-region `i`
with value `v`; pieces outside `i` keep their values, empty fragments are
dropped. -/
def region_map_set (m : List (region_t × ℚ)) (i : region_t) (v : ℚ) :
    List (region_t × ℚ) :=
  (m.flatMap fun rw =>
    ((region_subtract rw.1 i).filter fun r => !region_is_empty r).map
      fun r => (r, rw.2)) ++ [(i, v)]

/-- The reactor activity variants (a closed discriminated union in the
source). -/
inductive activity_t where
  | primary_when_safe
  | primary
  | secondary_up_to_date
  | secondary_without_primary
  | secondary_backfilling
  | nothing_when_safe
  | nothing_when_done_erasing
  | nothing
deriving DecidableEq, Repr

/-- The cost assigned to each activity variant by
`estimate_cost_to_get_up_to_date` (the `boost::get` cascade). -/
def activityCost : activity_t → ℚ
  | .primary_when_safe => 0
  | .primary => 0
  | .secondary_up_to_date => 1
  | .secondary_without_primary => 2
  | .secondary_backfilling => 2
  | .nothing_when_safe => 3
  | .nothing_when_done_erasing => 3
  | .nothing => 3

/-- A `reactor_business_card_t`: the activity map of one server for one table.
Each entry carries the key sub-range it applies to and the activity variant. -/
structure reactor_business_card_t where
  activities : List (region_t × activity_t)
deriving DecidableEq, Repr

/-- One fold step of `estimate_cost_to_get_up_to_date`'s activity loop: if the
activity's region intersects the target shard, overwrite the intersection with
the variant's cost. -/
def estimateStep (shard : region_t) (m : List (region_t × ℚ))
    (a : region_t × activity_t) : List (region_t × ℚ) :=
  let i := region_intersection a.1 shard
  if region_is_empty i then m else region_map_set m i (activityCost a.2)

/-- The unweighted mean over the pieces of a region map (the final sum/count
loop of the estimator). -/
def region_map_mean (m : List (region_t × ℚ)) : ℚ :=
  (m.map (·.2)).sum / (m.length : ℚ)

/-- `estimate_cost_to_get_up_to_date()`: build a piecewise-constant cost map
over the target shard initialized to 3, overwrite each intersecting activity's
region with that activity's cost, and return the unweighted mean over the
pieces. -/
def estimate_cost_to_get_up_to_date (business_card : reactor_business_card_t)
    (shard : region_t) : ℚ :=
  region_map_mean (business_card.activities.foldl (estimateStep shard)
    (region_map_init shard 3))

/-- `pairing_t`: the possibility of using a given server as a replica for the
given shard. -/
structure pairing_t where
  backfill_cost : ℚ
  shard : Nat
deriving DecidableEq, Repr

/-- `operator<(const pairing_t &, const pairing_t &)`: compares only
`backfill_cost`. -/
def pairingLt (x y : pairing_t) : Bool :=
  decide (x.backfill_cost < y.backfill_cost)

/-- `server_pairings_t`: the pairings of one server, with its usage costs.
`pairings` models the `std::multiset<pairing_t>` (sorted by `pairingLt`,
with equivalent elements in insertion order). -/
structure server_pairings_t where
  self_usage_cost : Int
  pairings : List pairing_t
  other_usage_cost : Int
  server : name_string_t
deriving DecidableEq, Repr

/-- `operator<` on (counted pointers to) `server_pairings_t`: lexicographic on
(self_usage_cost, cheapest pairing, other_usage_cost).  The source
`guarantee`s both pairing multisets non-empty; the catch-all branch is
unreachable under that invariant. -/
def spLt (x y : server_pairings_t) : Bool :=
  if x.self_usage_cost < y.self_usage_cost then true
  else if y.self_usage_cost < x.self_usage_cost then false
  else
    match x.pairings, y.pairings with
    | xp :: _, yp :: _ =>
      if pairingLt xp yp then true
      else if pairingLt yp xp then false
      else decide (x.other_usage_cost < y.other_usage_cost)
    | _, _ => decide (x.other_usage_cost < y.other_usage_cost)

/-- `std::multiset` insertion: place the new element after every element it is
not strictly less than (insertion at the upper bound). -/
def msInsert (lt : α → α → Bool) (x : α) : List α → List α
  | [] => [x]
  | y :: ys => if lt x y then x :: y :: ys else y :: msInsert lt x ys

def PRIMARY_USAGE_COST : Int := 10
def SECONDARY_USAGE_COST : Int := 8

/-- The total number of pairings contained in a collection of
`server_pairings_t`. -/
def totalPairings (ms : List server_pairings_t) : Nat :=
  (ms.map (·.pairings.length)).sum

/-- The loop of `pick_best_pairings`.  `sr` models the `shard_replicas`
vector (as a function on shard indices), the accumulator records the callback
invocations (newest first), and `acc.length` is `total_replicas`.  Each
iteration consumes exactly one pairing, so the fuel
`totalPairings` is exact; `none` models the undefined behaviour in the C++
(`*pairings.begin()` of an empty multiset / `begin` of an empty pairing set),
which cannot be a normal return. -/
def pickGo (num_shards num_replicas : Nat) (usage_cost : Int) :
    Nat → List server_pairings_t → (Nat → Nat) → List (Nat × name_string_t) →
    Option (List (Nat × name_string_t))
  | fuel, ms, sr, acc =>
    if acc.length < num_shards * num_replicas then
      match fuel, ms with
      | 0, _ => none
      | _ + 1, [] => none
      | fuel' + 1, sp :: rest =>
        match sp.pairings with
        | [] => none
        | p :: ps =>
          if sr p.shard < num_replicas then
            let sp' : server_pairings_t :=
              { sp with self_usage_cost := sp.self_usage_cost + usage_cost,
                        pairings := ps }
            let ms' := if ps.isEmpty then rest else msInsert spLt sp' rest
            pickGo num_shards num_replicas usage_cost fuel' ms'
              (fun j => if j = p.shard then sr p.shard + 1 else sr j)
              ((p.shard, sp.server) :: acc)
          else
            let sp' : server_pairings_t := { sp with pairings := ps }
            let ms' := if ps.isEmpty then rest else msInsert spLt sp' rest
            pickGo num_shards num_replicas usage_cost fuel' ms' sr acc
    else some acc.reverse

/-- `pick_best_pairings()`: choose the `num_replicas` best pairings for each
shard; the returned list records the callback invocations in order. -/
def pick_best_pairings (num_shards num_replicas : Nat)
    (pairings : List server_pairings_t) (usage_cost : Int) :
    Option (List (Nat × name_string_t)) :=
  pickGo num_shards num_replicas usage_cost (totalPairings pairings) pairings
    (fun _ => 0) []

/-- Sorted duplicate-free insertion, modelling `std::set<name_string_t>`
insertion (iteration order is ascending). -/
def setInsert (s : name_string_t) : List name_string_t → List name_string_t
  | [] => [s]
  | t :: ts =>
    if s < t then s :: t :: ts
    else if s = t then t :: ts
    else t :: setInsert s ts

/-- The error message for `num_shards <= 0`. -/
def msgNoShard : String := "Every table must have at least one shard."

/-- The error message for `num_shards > 32` (`strprintf` with
`max_shards = 32`). -/
def msgMaxShards : String := "Maximum number of shards is 32."

/-- The error message for a director tag without replicas. -/
def msgDirector (tag : name_string_t) : String :=
  "Can\x27t use server tag `" ++ tag ++ "` for directors because you " ++
    "specified no replicas in server tag `" ++ tag ++ "`."

/-- The overlapping-tags error message; `t1` is the tag being processed,
`t0` the tag that already claimed the server. -/
def msgOverlap (t1 t0 srv : name_string_t) : String :=
  "Server tags `" ++ t1 ++ "` and `" ++ t0 ++ "` overlap; both contain " ++
    "server `" ++ srv ++ "`. The server tags used for replication settings " ++
    "for a given table must be non-overlapping."

/-- The missing-server error message. -/
def msgMissing (srv : name_string_t) : String :=
  "Can\x27t configure table because server `" ++ srv ++ "` is missing"

/-- The name-collision error message. -/
def msgColliding (srv : name_string_t) : String :=
  "Cannot configure table because multiple servers are named `" ++ srv ++
    "`. Fix this name collision and try again."

/-- The insufficient-servers error message of the per-tag loop. -/
def msgInsufficient (cnt : Nat) (tag : name_string_t) (num_in_tag : Nat) :
    String :=
  "You requested " ++ toString cnt ++ " replicas on servers with the tag `" ++
    tag ++ "`, but there are only " ++ toString num_in_tag ++
    " servers with the tag `" ++ tag ++ "`. It\x27s impossible " ++
    "to have more replicas of the data than there are servers."

/-- `table_generate_config_params_t`: `num_replicas` models the
`std::map<name_string_t, size_t>` as an association list in key iteration
order (keys duplicate-free for a faithful map). -/
structure table_generate_config_params_t where
  num_shards : Nat
  num_replicas : List (name_string_t × Nat)
  director_tag : name_string_t

/-- The inner loop of `validate_params`: walk one tag's server set, claiming
each server in the `servers_claimed` map; a server already claimed yields the
overlap error. -/
def claimServers (tag : name_string_t) :
    List name_string_t → List (name_string_t × name_string_t) →
    Except String (List (name_string_t × name_string_t))
  | [], claimed => .ok claimed
  | srv :: more, claimed =>
    match claimed.lookup srv with
    | none => claimServers tag more ((srv, tag) :: claimed)
    | some tag0 => .error (msgOverlap tag tag0 srv)

/-- The outer claiming loop of `validate_params` over the replica spec,
skipping tags with count 0. -/
def claimAll (swt : List (name_string_t × List name_string_t)) :
    List (name_string_t × Nat) → List (name_string_t × name_string_t) →
    Except String (List (name_string_t × name_string_t))
  | [], claimed => .ok claimed
  | (tag, cnt) :: rest, claimed =>
    if cnt = 0 then claimAll swt rest claimed
    else
      match claimServers tag ((swt.lookup tag).getD []) claimed with
      | .error msg => .error msg
      | .ok claimed' => claimAll swt rest claimed'

/-- `validate_params()`: returns `some message` when the parameters are
rejected, `none` when they are legal. -/
def validate_params (params : table_generate_config_params_t)
    (servers_with_tags : List (name_string_t × List name_string_t)) :
    Option String :=
  if params.num_shards = 0 then some msgNoShard
  else if 32 < params.num_shards then some msgMaxShards
  else if (params.num_replicas.lookup params.director_tag).getD 0 = 0 then
    some (msgDirector params.director_tag)
  else
    match claimAll servers_with_tags params.num_replicas [] with
    | .error msg => some msg
    | .ok _ => none

/-- The snapshot interface of `server_name_client_t` used by the planner:
tag membership (each set in ascending order), the name → machine-id multimap
(`lookup` finds the first entry, as `find` on a `std::multimap`), and the
machine-id → peer-id map. -/
structure server_name_client_t where
  servers_with_tag : name_string_t → List name_string_t
  name_to_machine_id : List (name_string_t × Nat)
  peer_id_for_machine_id : Nat → Option Nat

/-- The directory view: for each peer, the map from table ids to reactor
business cards (`namespaces_directory_metadata_t::reactor_bcards`). -/
structure directory_t where
  peers : List (Nat × List (Nat × reactor_business_card_t))

/-- Lines 250-260: snapshot the server set of each tag mentioned in the
replica spec, plus the director tag when absent. -/
def buildServersWithTags (nc : server_name_client_t)
    (params : table_generate_config_params_t) :
    List (name_string_t × List name_string_t) :=
  let base := params.num_replicas.map fun e => (e.1, nc.servers_with_tag e.1)
  if (base.lookup params.director_tag).isSome then base
  else base ++ [(params.director_tag, nc.servers_with_tag params.director_tag)]

/-- One server of the directory-fetch loop: classify the server as colliding
(> 1 machine id), missing (no machine id / peer id / peer directory entry), or
record its business card for this table if present.  State:
(missing set, colliding set, directory_metadata map). -/
def fetchServer (nc : server_name_client_t) (table_id : Nat)
    (dir : directory_t)
    (st : List name_string_t × List name_string_t ×
      List (name_string_t × reactor_business_card_t))
    (srv : name_string_t) :
    List name_string_t × List name_string_t ×
      List (name_string_t × reactor_business_card_t) :=
  let (missing, colliding, dm) := st
  if 1 < (nc.name_to_machine_id.filter fun e => e.1 = srv).length then
    (missing, setInsert srv colliding, dm)
  else
    match nc.name_to_machine_id.lookup srv with
    | none => (setInsert srv missing, colliding, dm)
    | some machine_id =>
      match nc.peer_id_for_machine_id machine_id with
      | none => (setInsert srv missing, colliding, dm)
      | some peer_id =>
        match dir.peers.lookup peer_id with
        | none => (setInsert srv missing, colliding, dm)
        | some peer_dir =>
          match peer_dir.lookup table_id with
          | none => st
          | some bc =>
            if (dm.lookup srv).isSome then (missing, colliding, dm)
            else (missing, colliding, dm ++ [(srv, bc)])

/-- Lines 266-322: for an existing table, fetch the reactor business cards of
every server in every snapshot tag set, failing on missing or colliding
servers (the reported server is the smallest element of the respective
`std::set`).  For a new table (`table_id = nil_uuid`) the fetch is skipped and
the metadata map stays empty. -/
def fetchDirectory (nc : server_name_client_t) (table_id : Nat)
    (dir : directory_t)
    (servers_with_tags : List (name_string_t × List name_string_t)) :
    Except String (List (name_string_t × reactor_business_card_t)) :=
  if table_id = nil_uuid then .ok []
  else
    let st := servers_with_tags.foldl
      (fun st e => e.2.foldl (fetchServer nc table_id dir) st) ([], [], [])
    match st.1 with
    | m :: _ => .error (msgMissing m)
    | [] =>
      match st.2.1 with
      | c :: _ => .error (msgColliding c)
      | [] => .ok st.2.2

/-- `table_config_t::shard_t`: `replica_names` models the
`std::set<name_string_t>` (ascending, duplicate-free), `director_names` the
`std::vector<name_string_t>`. -/
structure shard_t where
  replica_names : List name_string_t
  director_names : List name_string_t
deriving DecidableEq, Repr

instance : Inhabited shard_t := ⟨⟨[], []⟩⟩

structure table_config_t where
  shards : List shard_t
deriving DecidableEq, Repr

/-- `config_out->shards.resize(params.num_shards)`: keep the existing prefix,
extend with default-constructed shards. -/
def resizeShards (cfg : table_config_t) (n : Nat) : table_config_t :=
  ⟨(cfg.shards.take n) ++ List.replicate (n - cfg.shards.length) ⟨[], []⟩⟩

/-- Apply `f` to shard `i` of the configuration (`config_out->shards[i]`). -/
def updateShard (cfg : table_config_t) (i : Nat) (f : shard_t → shard_t) :
    table_config_t :=
  ⟨cfg.shards.modify f i⟩

/-- Lines 355-372: the `backfill_cost` computed for one (server, shard)
pairing, exactly as the source has it: the directory lookup / estimator branch
is taken when `table_id == nil_uuid()`, the constant-0 branch otherwise. -/
def computeBackfillCost (table_id : Nat)
    (directory_metadata : List (name_string_t × reactor_business_card_t))
    (shard_range : Nat → region_t) (shard : Nat) (server : name_string_t) :
    ℚ :=
  if table_id = nil_uuid then
    match directory_metadata.lookup server with
    | none => 3
    | some bc => estimate_cost_to_get_up_to_date bc (shard_range shard)
  else 0

/-- Lines 349-374: build one server's `server_pairings_t`, inserting one
pairing per shard (in shard order) into its multiset. -/
def buildServerPairing (table_id : Nat)
    (directory_metadata : List (name_string_t × reactor_business_card_t))
    (server_usage : List (name_string_t × Int)) (shard_range : Nat → region_t)
    (num_shards : Nat) (server : name_string_t) : server_pairings_t :=
  { server := server
    self_usage_cost := 0
    other_usage_cost := (server_usage.lookup server).getD 0
    pairings := (List.range num_shards).foldl
      (fun ms shard =>
        msInsert pairingLt
          ⟨computeBackfillCost table_id directory_metadata shard_range shard
            server, shard⟩ ms)
      [] }

/-- Lines 398-404 and 432-438: build the selector's multiset from the pairings
map (iterated in key order), skipping servers with no remaining pairings. -/
def msBuild (pairings : List (name_string_t × server_pairings_t)) :
    List server_pairings_t :=
  pairings.foldl
    (fun s x => if x.2.pairings.isEmpty then s else msInsert spLt x.2 s) []

/-- Remove the first pairing with the given shard from a pairing multiset
(the erase loop of the director callback, lines 420-427). -/
def eraseShard (shard : Nat) : List pairing_t → List pairing_t
  | [] => []
  | p :: ps => if p.shard = shard then ps else p :: eraseShard shard ps

/-- Replace the value at key `k` of an association list by `f` of it (mutation
of `pairings[server]` through the map). -/
def mapUpdate (k : name_string_t) (f : server_pairings_t → server_pairings_t) :
    List (name_string_t × server_pairings_t) →
    List (name_string_t × server_pairings_t)
  | [] => []
  | e :: es => if e.1 = k then (e.1, f e.2) :: es else e :: mapUpdate k f es

/-- The director-phase callback (lines 412-428), applied to one placement:
`guarantee` that the shard has no director yet (`none` models the process
abort), insert the server into the replica set, append it to the director
list, and update the pairings map (bump `self_usage_cost`, drop the placed
shard's pairing). -/
def applyDirectorPlacement
    (st : table_config_t × List (name_string_t × server_pairings_t))
    (pl : Nat × name_string_t) :
    Option (table_config_t × List (name_string_t × server_pairings_t)) :=
  let (cfg, pairings) := st
  if ((cfg.shards.getD pl.1 default).director_names).isEmpty then
    some (updateShard cfg pl.1 (fun sh =>
        { sh with replica_names := setInsert pl.2 sh.replica_names,
                  director_names := sh.director_names ++ [pl.2] }),
      mapUpdate pl.2 (fun sp =>
        { sp with self_usage_cost := sp.self_usage_cost + PRIMARY_USAGE_COST,
                  pairings := eraseShard pl.1 sp.pairings }) pairings)
  else none

def applyDirectorPlacements
    (cfg : table_config_t) (pairings : List (name_string_t × server_pairings_t)) :
    List (Nat × name_string_t) →
    Option (table_config_t × List (name_string_t × server_pairings_t))
  | [] => some (cfg, pairings)
  | pl :: pls =>
    match applyDirectorPlacement (cfg, pairings) pl with
    | none => none
    | some (cfg', pairings') => applyDirectorPlacements cfg' pairings' pls

/-- The replica-phase callback (lines 446-448): insert the server into the
shard's replica set. -/
def applyReplicaPlacements (cfg : table_config_t)
    (pls : List (Nat × name_string_t)) : table_config_t :=
  pls.foldl
    (fun c pl => updateShard c pl.1 (fun sh =>
      { sh with replica_names := setInsert pl.2 sh.replica_names })) cfg

/-- Outcome of the per-tag loop: a value-returned failure carries the
(not rolled back) state of `config_out`; `crash` models a `guarantee`
failure or the undefined behaviour of a stuck selector loop. -/
inductive tagOutcome where
  | ok (cfg : table_config_t) (total : Nat)
  | fail (cfg : table_config_t) (msg : String)
  | crash
deriving DecidableEq, Repr

/-- Result of processing one tag with non-zero count (a failure carries the
untouched `config_out` state, `crash` a `guarantee` failure or undefined
behaviour). -/
inductive stepResult where
  | ok (cfg : table_config_t)
  | fail (cfg : table_config_t) (msg : String)
  | crash
deriving DecidableEq, Repr

/-- The pairing space of one tag (lines 348-377): one `server_pairings_t` per
server, in the iteration order of the server set. -/
def tagPairings (table_id : Nat)
    (directory_metadata : List (name_string_t × reactor_business_card_t))
    (server_usage : List (name_string_t × Int)) (shard_range : Nat → region_t)
    (num_shards : Nat) (servers : List name_string_t) :
    List (name_string_t × server_pairings_t) :=
  servers.map fun srv =>
    (srv, buildServerPairing table_id directory_metadata server_usage
      shard_range num_shards srv)

/-- One iteration of the per-tag loop (lines 337-448), for a tag with a
non-zero count: check `num_in_tag >= count`, build the pairing space, run the
director phase when the tag is the director tag, then the replica phase. -/
def processTag (table_id : Nat)
    (directory_metadata : List (name_string_t × reactor_business_card_t))
    (server_usage : List (name_string_t × Int)) (shard_range : Nat → region_t)
    (num_shards : Nat) (director_tag : name_string_t)
    (servers_with_tags : List (name_string_t × List name_string_t))
    (server_tag : name_string_t) (cnt : Nat) (cfg : table_config_t) :
    stepResult :=
  if ((servers_with_tags.lookup server_tag).getD []).length < cnt then
    .fail cfg (msgInsufficient cnt server_tag
      ((servers_with_tags.lookup server_tag).getD []).length)
  else
    match (if server_tag = director_tag then
        match pick_best_pairings num_shards 1
            (msBuild (tagPairings table_id directory_metadata server_usage
              shard_range num_shards
              ((servers_with_tags.lookup server_tag).getD [])))
            PRIMARY_USAGE_COST with
        | none => none
        | some placements =>
          applyDirectorPlacements cfg
            (tagPairings table_id directory_metadata server_usage shard_range
              num_shards ((servers_with_tags.lookup server_tag).getD []))
            placements
      else some (cfg, tagPairings table_id directory_metadata server_usage
        shard_range num_shards
        ((servers_with_tags.lookup server_tag).getD []))) with
    | none => .crash
    | some (cfg', pairings') =>
      match pick_best_pairings num_shards
          (cnt - (if server_tag = director_tag then 1 else 0))
          (msBuild pairings') SECONDARY_USAGE_COST with
      | none => .crash
      | some placements2 => .ok (applyReplicaPlacements cfg' placements2)

/-- Lines 329-449: the per-tag loop, skipping tags with count 0 and
accumulating `total_replicas`. -/
def runTags (table_id : Nat)
    (directory_metadata : List (name_string_t × reactor_business_card_t))
    (server_usage : List (name_string_t × Int)) (shard_range : Nat → region_t)
    (num_shards : Nat) (director_tag : name_string_t)
    (servers_with_tags : List (name_string_t × List name_string_t)) :
    List (name_string_t × Nat) → table_config_t → Nat → tagOutcome
  | [], cfg, total => .ok cfg total
  | (server_tag, cnt) :: rest, cfg, total =>
    if cnt = 0 then
      runTags table_id directory_metadata server_usage shard_range num_shards
        director_tag servers_with_tags rest cfg total
    else
      match processTag table_id directory_metadata server_usage shard_range
          num_shards director_tag servers_with_tags server_tag cnt cfg with
      | .fail cfg' msg => .fail cfg' msg
      | .crash => .crash
      | .ok cfg'' =>
        runTags table_id directory_metadata server_usage shard_range
          num_shards director_tag servers_with_tags rest cfg'' (total + cnt)

/-- The final `guarantee` loop (lines 451-454): every shard has
`total_replicas` replicas and exactly one director. -/
def guaranteesOk (num_shards total : Nat) (cfg : table_config_t) : Bool :=
  (List.range num_shards).all fun shard =>
    ((cfg.shards.getD shard default).replica_names.length == total) &&
      ((cfg.shards.getD shard default).director_names.length == 1)

/-- Result of `table_generate_config`: `success` is the `return true` path,
`failure` the `return false` path (carrying the state of the out-parameter
`config_out` at that point), `crash` a `guarantee` failure or undefined
behaviour. -/
inductive gen_result where
  | success (cfg : table_config_t)
  | failure (cfg : table_config_t) (msg : String)
  | crash
deriving DecidableEq, Repr

/-- `table_generate_config()` (lines 230-457): snapshot tags, validate, fetch
the directory, resize the output, run the per-tag loop, and check the final
guarantees.  `config_in` is the state of the out-parameter `config_out` at
entry. -/
def table_generate_config (nc : server_name_client_t) (table_id : Nat)
    (directory_view : directory_t) (server_usage : List (name_string_t × Int))
    (params : table_generate_config_params_t) (shard_range : Nat → region_t)
    (config_in : table_config_t) : gen_result :=
  let servers_with_tags := buildServersWithTags nc params
  match validate_params params servers_with_tags with
  | some msg => .failure config_in msg
  | none =>
    match fetchDirectory nc table_id directory_view servers_with_tags with
    | .error msg => .failure config_in msg
    | .ok directory_metadata =>
      let cfg0 := resizeShards config_in params.num_shards
      match runTags table_id directory_metadata server_usage shard_range
          params.num_shards params.director_tag servers_with_tags
          params.num_replicas cfg0 0 with
      | .fail cfg msg => .failure cfg msg
      | .crash => .crash
      | .ok cfg total =>
        if guaranteesOk params.num_shards total cfg then .success cfg
        else .crash

/-! ### Concrete fixtures used by the scenario theorems -/

/-- A simple shard scheme: shard `i` owns the key range `[i, i+1)`. -/
def demoRange : Nat → region_t := fun i => ⟨i, i + 1⟩

/-- Scenario S2's name client: tag `default` holds servers A, B, C. -/
def ncS2 : server_name_client_t :=
  { servers_with_tag := fun t => if t = "default" then ["A", "B", "C"] else []
    name_to_machine_id := []
    peer_id_for_machine_id := fun _ => none }

/-- Scenario S2's parameters: 3 shards, tag `default` with count 1, director
tag `default`. -/
def paramsS2 : table_generate_config_params_t :=
  { num_shards := 3, num_replicas := [("default", 1)],
    director_tag := "default" }

/-- A business card whose single activity is `nothing` over `[0, 10)`. -/
def bcNothing : reactor_business_card_t := ⟨[(⟨0, 10⟩, .nothing)]⟩

/-- A server-pairings collection for the C4 counterexample: two servers, each
with a single pairing for shard 0 only. -/
def spOnlyShard0 : List server_pairings_t :=
  [⟨0, [⟨0, 0⟩], 0, "A"⟩, ⟨0, [⟨0, 0⟩], 0, "B"⟩]

/-! ### C1 -/

/-- C1: claimed — a new table (nil `table_id`) makes every pairing's
`backfill_cost` equal 0.  In the code the branch condition at line 358 is
inverted: with `table_id = nil_uuid` the directory fetch is skipped (the
metadata map is empty) yet the lookup branch is taken, so every pairing of
every server gets `backfill_cost = 3`, not 0.  This theorem evaluates the code
at such an input. -/
theorem c1_new_table_backfill_is_three_not_zero :
    fetchDirectory ncS2 nil_uuid ⟨[]⟩ (buildServersWithTags ncS2 paramsS2) =
      .ok [] ∧
    (buildServerPairing nil_uuid [] [] demoRange 3 "A").pairings =
      [⟨3, 0⟩, ⟨3, 1⟩, ⟨3, 2⟩] ∧
    ¬ (buildServerPairing nil_uuid [] [] demoRange 3 "A").pairings.all
        (fun p => p.backfill_cost == 0) := by
  refine ⟨rfl, by decide, by decide⟩

/-! ### C2 -/

/-- C2: claimed — for an existing table, a server with a directory entry gets
the estimator's result and a server without one gets 3.0.  Because of the
inverted condition at line 358, an existing table (`table_id ≠ nil_uuid`)
always takes the constant branch: both servers get `backfill_cost = 0`, even
though the estimator would return 3 for server A's all-`nothing` card and the
claimed value for entry-less server B is 3.  This theorem evaluates the code
at such an input. -/
theorem c2_existing_table_backfill_is_zero :
    computeBackfillCost 1 [("A", bcNothing)] demoRange 0 "A" = 0 ∧
    estimate_cost_to_get_up_to_date bcNothing (demoRange 0) = 3 ∧
    computeBackfillCost 1 [("A", bcNothing)] demoRange 0 "B" = 0 ∧
    (0 : ℚ) ≠ 3 := by
  refine ⟨rfl, ?_, rfl, by decide⟩
  norm_num [estimate_cost_to_get_up_to_date, estimateStep, region_map_init,
    region_map_set, region_subtract, region_intersection, region_is_empty,
    region_map_mean, bcNothing, demoRange, activityCost]

/-! ### C5 -/

/-- C5: the claimed order (backfill cost, then shard index as tie-break) does
not match `operator<(pairing_t, pairing_t)`: two pairings with equal cost and
different shards are incomparable in the code, while the claim orders them by
shard. -/
theorem c5_counterexample :
    ¬ (pairingLt ⟨1, 0⟩ ⟨1, 1⟩ = true ↔
        ((⟨1, 0⟩ : pairing_t).backfill_cost <
            (⟨1, 1⟩ : pairing_t).backfill_cost ∨
          ((⟨1, 0⟩ : pairing_t).backfill_cost =
              (⟨1, 1⟩ : pairing_t).backfill_cost ∧
            (⟨1, 0⟩ : pairing_t).shard < (⟨1, 1⟩ : pairing_t).shard))) := by
  decide

/-- C5 (amended): the strict order on `pairing_t` used by the selector
compares `backfill_cost` only; pairings with equal cost are equivalent
(neither precedes the other) regardless of shard index. -/
theorem c5_pairing_order_is_backfill_cost_only (a b : pairing_t) :
    pairingLt a b = true ↔ a.backfill_cost < b.backfill_cost := by
  simp [pairingLt]

/-! ### C6 -/

/-- C6: scenario S2 — new table, 3 shards, tag `default` = {A, B, C} with
count 1 as director tag: the planner succeeds and the three directors are
pairwise distinct, each server directing exactly one shard. -/
theorem c6_three_shards_three_distinct_directors :
    table_generate_config ncS2 nil_uuid ⟨[]⟩ [] paramsS2 demoRange ⟨[]⟩ =
      .success ⟨[⟨["A"], ["A"]⟩, ⟨["B"], ["B"]⟩, ⟨["C"], ["C"]⟩]⟩ ∧
    (([⟨["A"], ["A"]⟩, ⟨["B"], ["B"]⟩, ⟨["C"], ["C"]⟩] :
        List shard_t).flatMap (·.director_names)) = ["A", "B", "C"] ∧
    (["A", "B", "C"] : List name_string_t).Nodup := by
  refine ⟨by decide, by decide, by decide⟩

/-! ### C9 -/

/-- C9: determinism — `table_generate_config` is a function of its snapshot
inputs: two runs on identical snapshots, parameters, shard scheme, table id
and initial output state produce identical results. -/
theorem c9_deterministic (nc nc' : server_name_client_t) (tid tid' : Nat)
    (dv dv' : directory_t) (su su' : List (name_string_t × Int))
    (p p' : table_generate_config_params_t) (sr sr' : Nat → region_t)
    (ci ci' : table_config_t) (h1 : nc = nc') (h2 : tid = tid')
    (h3 : dv = dv') (h4 : su = su') (h5 : p = p') (h6 : sr = sr')
    (h7 : ci = ci') :
    table_generate_config nc tid dv su p sr ci =
      table_generate_config nc' tid' dv' su' p' sr' ci' := by
  subst h1; subst h2; subst h3; subst h4; subst h5; subst h6; subst h7; rfl

/-- Witness for C9 at scenario S2's inputs. -/
theorem c9_deterministic_witness :
    table_generate_config ncS2 nil_uuid ⟨[]⟩ [] paramsS2 demoRange ⟨[]⟩ =
      table_generate_config ncS2 nil_uuid ⟨[]⟩ [] paramsS2 demoRange ⟨[]⟩ :=
  c9_deterministic ncS2 ncS2 nil_uuid nil_uuid ⟨[]⟩ ⟨[]⟩ [] [] paramsS2
    paramsS2 demoRange demoRange ⟨[]⟩ ⟨[]⟩ rfl rfl rfl rfl rfl rfl rfl

/-! ### C4, counterexample part -/

/-- C4: a total pairing count at least `num_shards × num_replicas` does not
make the selector terminate with that many placements: two servers whose only
pairings are both for shard 0 give 2 ≥ 2 × 1 total pairings, yet the loop
exhausts the multiset after one placement and dereferences `begin()` of an
empty multiset (modelled as `none`) instead of invoking the callback
2 × 1 times. -/
theorem c4_counterexample :
    totalPairings spOnlyShard0 = 2 * 1 ∧
    pick_best_pairings 2 1 spOnlyShard0 PRIMARY_USAGE_COST = none := by
  refine ⟨by decide, by decide⟩

/-! ### Counting helpers for the selector proofs -/

/-- Number of placements for shard `j` in a placement list. -/
def countShardPair (j : Nat) (l : List (Nat × name_string_t)) : Nat :=
  l.countP fun pr => pr.1 == j

/-- Number of pairings for shard `j` contained in a collection of
`server_pairings_t`. -/
def countShardMs (j : Nat) (ms : List server_pairings_t) : Nat :=
  (ms.map fun sp => sp.pairings.countP fun p => p.shard == j).sum

theorem countShardPair_nil (j : Nat) : countShardPair j [] = 0 := rfl

theorem countShardPair_cons (j : Nat) (pr : Nat × name_string_t)
    (l : List (Nat × name_string_t)) :
    countShardPair j (pr :: l) =
      countShardPair j l + (if pr.1 = j then 1 else 0) := by
  simp only [countShardPair, List.countP_cons]
  by_cases h : pr.1 = j <;> simp [h]

theorem countShardPair_reverse (j : Nat) (l : List (Nat × name_string_t)) :
    countShardPair j l.reverse = countShardPair j l := by
  simp only [countShardPair, List.countP_eq_length_filter, List.filter_reverse,
    List.length_reverse]

theorem mem_msInsert {lt : α → α → Bool} {x y : α} {l : List α} :
    y ∈ msInsert lt x l ↔ y = x ∨ y ∈ l := by
  induction l with
  | nil => simp [msInsert]
  | cons z zs ih =>
    simp only [msInsert]
    split
    · simp
    · simp only [List.mem_cons, ih]
      tauto

theorem totalPairings_cons (sp : server_pairings_t)
    (ms : List server_pairings_t) :
    totalPairings (sp :: ms) = sp.pairings.length + totalPairings ms := by
  simp [totalPairings]

theorem totalPairings_msInsert (lt : server_pairings_t →
      server_pairings_t → Bool) (x : server_pairings_t)
    (l : List server_pairings_t) :
    totalPairings (msInsert lt x l) = x.pairings.length + totalPairings l := by
  induction l with
  | nil => simp [msInsert, totalPairings]
  | cons z zs ih =>
    simp only [msInsert]
    split
    · simp [totalPairings_cons]
    · simp only [totalPairings_cons, ih]
      omega

theorem countShardMs_cons (j : Nat) (sp : server_pairings_t)
    (ms : List server_pairings_t) :
    countShardMs j (sp :: ms) =
      sp.pairings.countP (fun p => p.shard == j) + countShardMs j ms := by
  simp [countShardMs]

theorem countShardMs_msInsert (j : Nat)
    (lt : server_pairings_t → server_pairings_t → Bool)
    (x : server_pairings_t) (l : List server_pairings_t) :
    countShardMs j (msInsert lt x l) =
      x.pairings.countP (fun p => p.shard == j) + countShardMs j l := by
  induction l with
  | nil => simp [msInsert, countShardMs]
  | cons z zs ih =>
    simp only [msInsert]
    split
    · simp [countShardMs_cons]
    · simp only [countShardMs_cons, ih]
      omega

theorem countShardMs_le_totalPairings (j : Nat)
    (ms : List server_pairings_t) :
    countShardMs j ms ≤ totalPairings ms := by
  induction ms with
  | nil => simp [countShardMs, totalPairings]
  | cons sp rest ih =>
    have := List.countP_le_length (fun p => p.shard == j) (l := sp.pairings)
    simp only [countShardMs_cons, totalPairings_cons]
    omega

/-- The length of a placement list whose shards all lie below `S` equals the
sum of its per-shard counts. -/
theorem length_eq_sum_countShardPair (S : Nat)
    (acc : List (Nat × name_string_t)) (h : ∀ pr ∈ acc, pr.1 < S) :
    acc.length = ∑ j ∈ Finset.range S, countShardPair j acc := by
  induction acc with
  | nil => simp [countShardPair]
  | cons pr t ih =>
    have hpr : pr.1 < S := h pr (List.mem_cons_self pr t)
    have ht : ∀ q ∈ t, q.1 < S := fun q hq => h q (List.mem_cons_of_mem pr hq)
    simp only [List.length_cons, ih ht, countShardPair_cons,
      Finset.sum_add_distrib]
    have : (∑ j ∈ Finset.range S, if pr.1 = j then 1 else 0) = 1 := by
      rw [Finset.sum_ite_eq (Finset.range S) pr.1 (fun _ => 1)]
      simp [Finset.mem_range.mpr hpr]
    omega

/-- At the selector's normal exit, the per-shard counters all equal the
per-shard cap. -/
theorem exit_counts_eq (S R : Nat) (acc : List (Nat × name_string_t))
    (hmem : ∀ pr ∈ acc, pr.1 < S)
    (hle : ∀ j, j < S → countShardPair j acc ≤ R)
    (hlen : acc.length = S * R) :
    ∀ j, j < S → countShardPair j acc = R := by
  by_contra hcon
  push_neg at hcon
  obtain ⟨j0, hj0, hne⟩ := hcon
  have hlt : countShardPair j0 acc < R := lt_of_le_of_ne (hle j0 hj0) hne
  have hsum : ∑ j ∈ Finset.range S, countShardPair j acc <
      ∑ _j ∈ Finset.range S, R := by
    refine Finset.sum_lt_sum (fun i hi => hle i (Finset.mem_range.mp hi)) ?_
    exact ⟨j0, Finset.mem_range.mpr hj0, hlt⟩
  rw [← length_eq_sum_countShardPair S acc hmem, Finset.sum_const,
    Finset.card_range, smul_eq_mul] at hsum
  omega

/-! ### Unfolding equations of the selector loop -/

theorem pickGo_exit (S R : Nat) (u : Int) (fuel : Nat)
    (ms : List server_pairings_t) (sr : Nat → Nat)
    (acc : List (Nat × name_string_t)) (h : ¬ acc.length < S * R) :
    pickGo S R u fuel ms sr acc = some acc.reverse := by
  rw [pickGo.eq_def]
  dsimp only
  rw [if_neg h]

theorem pickGo_zero (S R : Nat) (u : Int) (ms : List server_pairings_t)
    (sr : Nat → Nat) (acc : List (Nat × name_string_t))
    (h : acc.length < S * R) :
    pickGo S R u 0 ms sr acc = none := by
  rw [pickGo.eq_def]
  dsimp only
  rw [if_pos h]

theorem pickGo_ms_nil (S R : Nat) (u : Int) (fuel : Nat) (sr : Nat → Nat)
    (acc : List (Nat × name_string_t)) (h : acc.length < S * R) :
    pickGo S R u (fuel + 1) [] sr acc = none := by
  rw [pickGo.eq_def]
  dsimp only
  rw [if_pos h]

theorem pickGo_sp_nil (S R : Nat) (u : Int) (fuel : Nat)
    (sp : server_pairings_t) (rest : List server_pairings_t) (sr : Nat → Nat)
    (acc : List (Nat × name_string_t)) (h : acc.length < S * R)
    (hsp : sp.pairings = []) :
    pickGo S R u (fuel + 1) (sp :: rest) sr acc = none := by
  rw [pickGo.eq_def]
  dsimp only
  rw [if_pos h]
  simp only [hsp]

theorem pickGo_place (S R : Nat) (u : Int) (fuel : Nat)
    (sp : server_pairings_t) (rest : List server_pairings_t) (sr : Nat → Nat)
    (acc : List (Nat × name_string_t)) (p : pairing_t) (ps : List pairing_t)
    (h : acc.length < S * R) (hsp : sp.pairings = p :: ps)
    (hlt : sr p.shard < R) :
    pickGo S R u (fuel + 1) (sp :: rest) sr acc =
      pickGo S R u fuel
        (if ps.isEmpty then rest
          else msInsert spLt
            { sp with self_usage_cost := sp.self_usage_cost + u,
                      pairings := ps } rest)
        (fun j => if j = p.shard then sr p.shard + 1 else sr j)
        ((p.shard, sp.server) :: acc) := by
  rw [pickGo.eq_def]
  dsimp only
  rw [if_pos h]
  simp only [hsp, if_pos hlt]

theorem pickGo_skip (S R : Nat) (u : Int) (fuel : Nat)
    (sp : server_pairings_t) (rest : List server_pairings_t) (sr : Nat → Nat)
    (acc : List (Nat × name_string_t)) (p : pairing_t) (ps : List pairing_t)
    (h : acc.length < S * R) (hsp : sp.pairings = p :: ps)
    (hge : ¬ sr p.shard < R) :
    pickGo S R u (fuel + 1) (sp :: rest) sr acc =
      pickGo S R u fuel
        (if ps.isEmpty then rest
          else msInsert spLt { sp with pairings := ps } rest)
        sr acc := by
  rw [pickGo.eq_def]
  dsimp only
  rw [if_pos h]
  simp only [hsp, if_neg hge]

/-- Conclusions available at the selector's normal exit. -/
theorem pickGo_exit_case (S R : Nat) (sr : Nat → Nat)
    (acc : List (Nat × name_string_t)) (hacc : ∀ pr ∈ acc, pr.1 < S)
    (hsr : ∀ j, sr j = countShardPair j acc)
    (hle : ∀ j, j < S → sr j ≤ R) (hnotlt : ¬ acc.length < S * R)
    (hlen : acc.length ≤ S * R) :
    acc.reverse.length = S * R ∧
      (∀ j, j < S → countShardPair j acc.reverse = R) ∧
      (∀ pr ∈ acc.reverse, pr.1 < S) := by
  have hlen' : acc.length = S * R := by omega
  have hcnt : ∀ j, j < S → countShardPair j acc ≤ R := fun j hj =>
    (hsr j) ▸ hle j hj
  refine ⟨by simpa using hlen', fun j hj => ?_, fun pr hpr => ?_⟩
  · rw [countShardPair_reverse]
    exact exit_counts_eq S R acc hacc hcnt hlen' j hj
  · exact hacc pr (List.mem_reverse.mp hpr)

/-- Soundness of the selector loop: whatever state it is started from, a
normal return makes exactly `num_shards * num_replicas` placements, exactly
`num_replicas` per shard below `num_shards`, all shard indices in range.
(Invariants: `sr` is the per-shard count of the accumulator, counts are
capped by `num_replicas`, all recorded shards are in range.) -/
theorem pickGo_sound (S R : Nat) (u : Int) :
    ∀ (fuel : Nat) (ms : List server_pairings_t) (sr : Nat → Nat)
      (acc l : List (Nat × name_string_t)),
      pickGo S R u fuel ms sr acc = some l →
      (∀ sp ∈ ms, ∀ p ∈ sp.pairings, p.shard < S) →
      (∀ pr ∈ acc, pr.1 < S) →
      (∀ j, sr j = countShardPair j acc) →
      (∀ j, j < S → sr j ≤ R) →
      acc.length ≤ S * R →
      l.length = S * R ∧ (∀ j, j < S → countShardPair j l = R) ∧
        (∀ pr ∈ l, pr.1 < S) := by
  intro fuel
  induction fuel with
  | zero =>
    intro ms sr acc l hres hms hacc hsr hle hlen
    by_cases h : acc.length < S * R
    · rw [pickGo_zero S R u ms sr acc h] at hres
      cases hres
    · rw [pickGo_exit S R u 0 ms sr acc h] at hres
      cases hres
      exact pickGo_exit_case S R sr acc hacc hsr hle h hlen
  | succ fuel ih =>
    intro ms sr acc l hres hms hacc hsr hle hlen
    by_cases h : acc.length < S * R
    · match ms with
      | [] =>
        rw [pickGo_ms_nil S R u fuel sr acc h] at hres
        cases hres
      | sp :: rest =>
        match hsp : sp.pairings with
        | [] =>
          rw [pickGo_sp_nil S R u fuel sp rest sr acc h hsp] at hres
          cases hres
        | p :: ps =>
          have hpmem : p ∈ sp.pairings := by
            rw [hsp]; exact List.mem_cons_self p ps
          have hpsmem : ∀ q ∈ ps, q ∈ sp.pairings := by
            intro q hq; rw [hsp]; exact List.mem_cons_of_mem p hq
          have hpS : p.shard < S :=
            hms sp (List.mem_cons_self sp rest) p hpmem
          have hms' : ∀ sq ∈ (if ps.isEmpty then rest
              else msInsert spLt
                { sp with self_usage_cost := sp.self_usage_cost + u,
                          pairings := ps } rest),
              ∀ q ∈ sq.pairings, q.shard < S := by
            intro sq hsq q hq
            by_cases he : ps.isEmpty
            · rw [if_pos he] at hsq
              exact hms sq (List.mem_cons_of_mem sp hsq) q hq
            · rw [if_neg he] at hsq
              rcases mem_msInsert.mp hsq with rfl | hsq'
              · exact hms sp (List.mem_cons_self sp rest) q (hpsmem q hq)
              · exact hms sq (List.mem_cons_of_mem sp hsq') q hq
          have hms'' : ∀ sq ∈ (if ps.isEmpty then rest
              else msInsert spLt { sp with pairings := ps } rest),
              ∀ q ∈ sq.pairings, q.shard < S := by
            intro sq hsq q hq
            by_cases he : ps.isEmpty
            · rw [if_pos he] at hsq
              exact hms sq (List.mem_cons_of_mem sp hsq) q hq
            · rw [if_neg he] at hsq
              rcases mem_msInsert.mp hsq with rfl | hsq'
              · exact hms sp (List.mem_cons_self sp rest) q (hpsmem q hq)
              · exact hms sq (List.mem_cons_of_mem sp hsq') q hq
          by_cases hlt : sr p.shard < R
          · rw [pickGo_place S R u fuel sp rest sr acc p ps h hsp hlt] at hres
            refine ih _ _ _ _ hres hms' ?_ ?_ ?_ ?_
            · intro pr hpr
              rcases List.mem_cons.mp hpr with rfl | hpr'
              · exact hpS
              · exact hacc pr hpr'
            · intro j
              simp only [countShardPair_cons]
              by_cases hj : j = p.shard
              · subst hj
                simp [hsr p.shard]
              · simp [hj, Ne.symm hj, hsr j]
            · intro j hj
              by_cases hj' : j = p.shard
              · simp only [if_pos hj']
                subst hj'
                omega
              · simp only [if_neg hj']
                exact hle j hj
            · simpa using h
          · rw [pickGo_skip S R u fuel sp rest sr acc p ps h hsp hlt] at hres
            exact ih _ _ _ _ hres hms'' hacc hsr hle hlen
    · rw [pickGo_exit S R u (fuel + 1) ms sr acc h] at hres
      cases hres
      exact pickGo_exit_case S R sr acc hacc hsr hle h hlen

/-- If every shard's counter has already reached the cap but fewer than
`num_shards * num_replicas` placements were made, we have a contradiction. -/
theorem pickGo_stuck_contra (S R : Nat) (sr : Nat → Nat)
    (acc : List (Nat × name_string_t)) (hacc : ∀ pr ∈ acc, pr.1 < S)
    (hsr : ∀ j, sr j = countShardPair j acc)
    (hle : ∀ j, j < S → sr j ≤ R) (hge : ∀ j, j < S → R ≤ sr j)
    (h : acc.length < S * R) : False := by
  have hsum : acc.length = ∑ j ∈ Finset.range S, countShardPair j acc :=
    length_eq_sum_countShardPair S acc hacc
  have hall : ∀ j ∈ Finset.range S, countShardPair j acc = R := by
    intro j hj
    have hj' := Finset.mem_range.mp hj
    have h1 := hle j hj'
    have h2 := hge j hj'
    rw [hsr j] at h1 h2
    omega
  rw [Finset.sum_congr rfl hall, Finset.sum_const, Finset.card_range,
    smul_eq_mul] at hsum
  omega

/-- Termination of the selector loop: if every shard below `num_shards` has at
least `num_replicas - sr j` pairings remaining (together with the structural
invariants), the loop reaches its target and returns normally. -/
theorem pickGo_total (S R : Nat) (u : Int) :
    ∀ (fuel : Nat) (ms : List server_pairings_t) (sr : Nat → Nat)
      (acc : List (Nat × name_string_t)),
      totalPairings ms ≤ fuel →
      (∀ sp ∈ ms, sp.pairings ≠ []) →
      (∀ sp ∈ ms, ∀ p ∈ sp.pairings, p.shard < S) →
      (∀ pr ∈ acc, pr.1 < S) →
      (∀ j, sr j = countShardPair j acc) →
      (∀ j, j < S → sr j ≤ R) →
      (∀ j, j < S → R ≤ sr j + countShardMs j ms) →
      acc.length ≤ S * R →
      ∃ l, pickGo S R u fuel ms sr acc = some l := by
  intro fuel
  induction fuel with
  | zero =>
    intro ms sr acc hfuel hne hms hacc hsr hle hcov hlen
    by_cases h : acc.length < S * R
    · exfalso
      have hcms : ∀ j, countShardMs j ms = 0 := fun j =>
        Nat.le_zero.mp (le_trans (countShardMs_le_totalPairings j ms) hfuel)
      refine pickGo_stuck_contra S R sr acc hacc hsr hle (fun j hj => ?_) h
      have := hcov j hj
      rw [hcms j] at this
      omega
    · exact ⟨acc.reverse, pickGo_exit S R u 0 ms sr acc h⟩
  | succ fuel ih =>
    intro ms sr acc hfuel hne hms hacc hsr hle hcov hlen
    by_cases h : acc.length < S * R
    · match ms with
      | [] =>
        exfalso
        refine pickGo_stuck_contra S R sr acc hacc hsr hle (fun j hj => ?_) h
        have := hcov j hj
        simp [countShardMs] at this
        omega
      | sp :: rest =>
        match hsp : sp.pairings with
        | [] => exact absurd hsp (hne sp (List.mem_cons_self sp rest))
        | p :: ps =>
          have hpmem : p ∈ sp.pairings := by
            rw [hsp]; exact List.mem_cons_self p ps
          have hpsmem : ∀ q ∈ ps, q ∈ sp.pairings := by
            intro q hq; rw [hsp]; exact List.mem_cons_of_mem p hq
          have hpS : p.shard < S :=
            hms sp (List.mem_cons_self sp rest) p hpmem
          have htp : totalPairings (sp :: rest) =
              ps.length + 1 + totalPairings rest := by
            rw [totalPairings_cons, hsp, List.length_cons]
          have hcnt : ∀ j, countShardMs j (sp :: rest) =
              ps.countP (fun q => q.shard == j) +
                (if p.shard = j then 1 else 0) + countShardMs j rest := by
            intro j
            rw [countShardMs_cons, hsp, List.countP_cons]
            by_cases hpj : p.shard = j
            · simp [hpj]
            · simp [hpj]
          by_cases hlt : sr p.shard < R
          · set sp' : server_pairings_t :=
              { sp with self_usage_cost := sp.self_usage_cost + u,
                        pairings := ps } with hsp'
            have hfuel' : totalPairings
                (if ps.isEmpty then rest else msInsert spLt sp' rest) ≤
                  fuel := by
              by_cases he : ps.isEmpty
              · rw [if_pos he]
                omega
              · rw [if_neg he, totalPairings_msInsert]
                have : sp'.pairings = ps := rfl
                rw [this]
                omega
            have hcms' : ∀ j, countShardMs j
                (if ps.isEmpty then rest else msInsert spLt sp' rest) =
                  ps.countP (fun q => q.shard == j) + countShardMs j rest := by
              intro j
              by_cases he : ps.isEmpty
              · rw [if_pos he]
                have : ps = [] := List.isEmpty_iff.mp he
                subst this
                simp
              · rw [if_neg he, countShardMs_msInsert]
            have hne' : ∀ sv ∈ (if ps.isEmpty then rest
                else msInsert spLt sp' rest), sv.pairings ≠ [] := by
              intro sv hsv
              by_cases he : ps.isEmpty
              · rw [if_pos he] at hsv
                exact hne sv (List.mem_cons_of_mem sp hsv)
              · rw [if_neg he] at hsv
                rcases mem_msInsert.mp hsv with rfl | hsv'
                · have hpp : sp'.pairings = ps := rfl
                  rw [hpp]
                  exact fun hc => he (by rw [hc]; rfl)
                · exact hne sv (List.mem_cons_of_mem sp hsv')
            have hms' : ∀ sq ∈ (if ps.isEmpty then rest
                else msInsert spLt sp' rest), ∀ q ∈ sq.pairings,
                q.shard < S := by
              intro sq hsq q hq
              by_cases he : ps.isEmpty
              · rw [if_pos he] at hsq
                exact hms sq (List.mem_cons_of_mem sp hsq) q hq
              · rw [if_neg he] at hsq
                rcases mem_msInsert.mp hsq with rfl | hsq'
                · exact hms sp (List.mem_cons_self sp rest) q (hpsmem q hq)
                · exact hms sq (List.mem_cons_of_mem sp hsq') q hq
            rw [pickGo_place S R u fuel sp rest sr acc p ps h hsp hlt]
            refine ih _ _ _ hfuel' hne' hms' ?_ ?_ ?_ ?_ ?_
            · intro pr hpr
              rcases List.mem_cons.mp hpr with rfl | hpr'
              · exact hpS
              · exact hacc pr hpr'
            · intro j
              simp only [countShardPair_cons]
              by_cases hj : j = p.shard
              · subst hj
                simp [hsr p.shard]
              · simp [hj, Ne.symm hj, hsr j]
            · intro j hj
              by_cases hj' : j = p.shard
              · simp only [if_pos hj']
                subst hj'
                omega
              · simp only [if_neg hj']
                exact hle j hj
            · intro j hj
              have hc := hcov j hj
              rw [hcnt j] at hc
              rw [hcms' j]
              by_cases hj' : j = p.shard
              · simp only [if_pos hj']
                subst hj'
                simp at hc
                omega
              · simp only [if_neg hj']
                rw [if_neg (fun hh => hj' hh.symm)] at hc
                omega
            · simpa using h
          · set sp' : server_pairings_t := { sp with pairings := ps }
              with hsp'
            have hfuel' : totalPairings
                (if ps.isEmpty then rest else msInsert spLt sp' rest) ≤
                  fuel := by
              by_cases he : ps.isEmpty
              · rw [if_pos he]
                omega
              · rw [if_neg he, totalPairings_msInsert]
                have : sp'.pairings = ps := rfl
                rw [this]
                omega
            have hcms' : ∀ j, countShardMs j
                (if ps.isEmpty then rest else msInsert spLt sp' rest) =
                  ps.countP (fun q => q.shard == j) + countShardMs j rest := by
              intro j
              by_cases he : ps.isEmpty
              · rw [if_pos he]
                have : ps = [] := List.isEmpty_iff.mp he
                subst this
                simp
              · rw [if_neg he, countShardMs_msInsert]
            have hne' : ∀ sv ∈ (if ps.isEmpty then rest
                else msInsert spLt sp' rest), sv.pairings ≠ [] := by
              intro sv hsv
              by_cases he : ps.isEmpty
              · rw [if_pos he] at hsv
                exact hne sv (List.mem_cons_of_mem sp hsv)
              · rw [if_neg he] at hsv
                rcases mem_msInsert.mp hsv with rfl | hsv'
                · have hpp : sp'.pairings = ps := rfl
                  rw [hpp]
                  exact fun hc => he (by rw [hc]; rfl)
                · exact hne sv (List.mem_cons_of_mem sp hsv')
            have hms' : ∀ sq ∈ (if ps.isEmpty then rest
                else msInsert spLt sp' rest), ∀ q ∈ sq.pairings,
                q.shard < S := by
              intro sq hsq q hq
              by_cases he : ps.isEmpty
              · rw [if_pos he] at hsq
                exact hms sq (List.mem_cons_of_mem sp hsq) q hq
              · rw [if_neg he] at hsq
                rcases mem_msInsert.mp hsq with rfl | hsq'
                · exact hms sp (List.mem_cons_self sp rest) q (hpsmem q hq)
                · exact hms sq (List.mem_cons_of_mem sp hsq') q hq
            rw [pickGo_skip S R u fuel sp rest sr acc p ps h hsp hlt]
            refine ih _ _ _ hfuel' hne' hms' hacc hsr hle ?_ hlen
            intro j hj
            have hc := hcov j hj
            rw [hcnt j] at hc
            rw [hcms' j]
            by_cases hj' : j = p.shard
            · subst hj'
              omega
            · rw [if_neg (fun hh => hj' hh.symm)] at hc
              omega
    · exact ⟨acc.reverse, pickGo_exit S R u (fuel + 1) ms sr acc h⟩

/-- C4 (amended): when every `ServerPairings` has a non-empty pairing set, all
pairing shard indices lie below `num_shards`, and every shard below
`num_shards` has at least `num_replicas` pairings available across the
collection, the selector terminates and invokes the placement callback
exactly `num_shards × num_replicas` times — exactly (hence at most)
`num_replicas` times per shard.  (A bound on the total number of pairings
alone is not sufficient, see the counterexample.) -/
theorem c4_selector_termination_amended (S R : Nat) (u : Int)
    (ms : List server_pairings_t)
    (h1 : ∀ sp ∈ ms, sp.pairings ≠ [])
    (h2 : ∀ sp ∈ ms, ∀ p ∈ sp.pairings, p.shard < S)
    (h3 : ∀ j, j < S → R ≤ countShardMs j ms) :
    ∃ l, pick_best_pairings S R ms u = some l ∧ l.length = S * R ∧
      ∀ j, j < S → countShardPair j l = R := by
  obtain ⟨l, hl⟩ := pickGo_total S R u (totalPairings ms) ms (fun _ => 0) []
    le_rfl h1 h2 (by simp) (fun j => rfl) (fun j hj => Nat.zero_le R)
    (fun j hj => by simpa using h3 j hj) (by simp)
  have hs := pickGo_sound S R u (totalPairings ms) ms (fun _ => 0) [] l hl
    h2 (by simp) (fun j => rfl) (fun j hj => Nat.zero_le R) (by simp)
  exact ⟨l, hl, hs.1, hs.2.1⟩

/-- A supply of pairings covering both shards on both servers, for the C4
witness. -/
def spBothShards : List server_pairings_t :=
  [⟨0, [⟨0, 0⟩, ⟨0, 1⟩], 0, "A"⟩, ⟨0, [⟨0, 0⟩, ⟨0, 1⟩], 0, "B"⟩]

/-- Witness for the amended C4 at a concrete two-shard, two-server input. -/
theorem c4_selector_termination_amended_witness :
    ∃ l, pick_best_pairings 2 1 spBothShards PRIMARY_USAGE_COST = some l ∧
      l.length = 2 * 1 ∧ ∀ j, j < 2 → countShardPair j l = 1 :=
  c4_selector_termination_amended 2 1 PRIMARY_USAGE_COST spBothShards
    (by decide) (by decide) (by decide)

/-! ### C8: the cost estimator -/

theorem activityCost_nonneg (a : activity_t) : 0 ≤ activityCost a := by
  cases a <;> norm_num [activityCost]

theorem activityCost_le_three (a : activity_t) : activityCost a ≤ 3 := by
  cases a <;> norm_num [activityCost]

/-- Every value in `region_map_set m i v` is `v` or a value of `m`. -/
theorem region_map_set_vals (m : List (region_t × ℚ)) (i : region_t) (v : ℚ) :
    ∀ pc ∈ region_map_set m i v, pc.2 = v ∨ ∃ qc ∈ m, pc.2 = qc.2 := by
  intro pc hpc
  rcases List.mem_append.mp hpc with hl | hr
  · rcases List.mem_flatMap.mp hl with ⟨qc, hqc, hpc'⟩
    rcases List.mem_map.mp hpc' with ⟨r, _hr, hpr⟩
    right
    exact ⟨qc, hqc, by rw [← hpr]⟩
  · left
    rcases List.mem_singleton.mp hr with rfl
    rfl

/-- Value provenance through the estimator's activity fold: every piece value
comes from the initial map or is the cost of one of the processed
activities. -/
theorem estimate_fold_vals (shard : region_t) :
    ∀ (acts : List (region_t × activity_t)) (m : List (region_t × ℚ)),
    ∀ pc ∈ acts.foldl (estimateStep shard) m,
      (∃ qc ∈ m, pc.2 = qc.2) ∨ ∃ a ∈ acts, pc.2 = activityCost a.2 := by
  intro acts
  induction acts with
  | nil =>
    intro m pc hpc
    exact Or.inl ⟨pc, hpc, rfl⟩
  | cons a rest ih =>
    intro m pc hpc
    rw [List.foldl_cons] at hpc
    rcases ih (estimateStep shard m a) pc hpc with ⟨qc, hqc, hv⟩ | ⟨b, hb, hv⟩
    · unfold estimateStep at hqc
      by_cases he : region_is_empty (region_intersection a.1 shard)
      · simp only [he, if_pos] at hqc
        exact Or.inl ⟨qc, hqc, hv⟩
      · simp only [if_neg he] at hqc
        rcases region_map_set_vals m _ _ qc hqc with hq | ⟨rc, hrc, hrv⟩
        · exact Or.inr ⟨a, List.mem_cons_self a rest, by rw [hv, hq]⟩
        · exact Or.inl ⟨rc, hrc, by rw [hv, hrv]⟩
    · exact Or.inr ⟨b, List.mem_cons_of_mem a hb, hv⟩

/-- The estimator's fold never empties the piece list. -/
theorem estimate_fold_ne_nil (shard : region_t) :
    ∀ (acts : List (region_t × activity_t)) (m : List (region_t × ℚ)),
      m ≠ [] → acts.foldl (estimateStep shard) m ≠ [] := by
  intro acts
  induction acts with
  | nil => exact fun m hm => hm
  | cons a rest ih =>
    intro m hm
    rw [List.foldl_cons]
    apply ih
    unfold estimateStep
    by_cases he : region_is_empty (region_intersection a.1 shard)
    · simpa [he] using hm
    · simp only [if_neg he]
      simp [region_map_set]

/-- The unweighted mean of a non-empty list of values in `[0, 3]` lies in
`[0, 3]`. -/
theorem region_map_mean_bounds (m : List (region_t × ℚ)) (hm : m ≠ [])
    (hv : ∀ pc ∈ m, 0 ≤ pc.2 ∧ pc.2 ≤ 3) :
    0 ≤ region_map_mean m ∧ region_map_mean m ≤ 3 := by
  have hlen : (0 : ℚ) < (m.length : ℚ) := by
    exact_mod_cast List.length_pos.mpr hm
  constructor
  · apply div_nonneg _ hlen.le
    apply List.sum_nonneg
    intro x hx
    rcases List.mem_map.mp hx with ⟨pc, hpc, rfl⟩
    exact (hv pc hpc).1
  · rw [region_map_mean, div_le_iff₀ hlen]
    have hb := List.sum_le_card_nsmul (m.map (·.2)) 3 ?_
    · simpa [nsmul_eq_mul, mul_comm] using hb
    · intro x hx
      rcases List.mem_map.mp hx with ⟨pc, hpc, rfl⟩
      exact (hv pc hpc).2

/-- C8: for every activity map with pairwise non-overlapping regions and
every non-empty target range, the estimator returns the unweighted mean over
the pieces of the piecewise-constant map built from initial value 3 by
overwriting each intersecting activity's region with that activity's cost
(0 / 0 / 1 / 2 / 2 / 3 / 3 / 3 per `activityCost`), and the result lies in
`[0, 3]`. -/
theorem c8_estimator_mean_in_bounds (bc : reactor_business_card_t)
    (shard : region_t) (hne : region_is_empty shard = false)
    (hnov : bc.activities.Pairwise
      (fun a b => region_is_empty (region_intersection a.1 b.1) = true)) :
    estimate_cost_to_get_up_to_date bc shard =
      region_map_mean (bc.activities.foldl (estimateStep shard)
        (region_map_init shard 3)) ∧
    (∀ pc ∈ bc.activities.foldl (estimateStep shard)
        (region_map_init shard 3),
      pc.2 = 3 ∨ ∃ a ∈ bc.activities, pc.2 = activityCost a.2) ∧
    0 ≤ estimate_cost_to_get_up_to_date bc shard ∧
    estimate_cost_to_get_up_to_date bc shard ≤ 3 := by
  have hvals : ∀ pc ∈ bc.activities.foldl (estimateStep shard)
      (region_map_init shard 3),
      pc.2 = 3 ∨ ∃ a ∈ bc.activities, pc.2 = activityCost a.2 := by
    intro pc hpc
    rcases estimate_fold_vals shard bc.activities (region_map_init shard 3)
        pc hpc with ⟨qc, hqc, hv⟩ | ⟨a, ha, hv⟩
    · left
      rcases List.mem_singleton.mp hqc with rfl
      exact hv
    · exact Or.inr ⟨a, ha, hv⟩
  have hbounds : 0 ≤ estimate_cost_to_get_up_to_date bc shard ∧
      estimate_cost_to_get_up_to_date bc shard ≤ 3 := by
    apply region_map_mean_bounds
    · exact estimate_fold_ne_nil shard bc.activities (region_map_init shard 3)
        (by simp [region_map_init])
    · intro pc hpc
      rcases hvals pc hpc with h3 | ⟨a, _ha, hv⟩
      · rw [h3]
        norm_num
      · rw [hv]
        exact ⟨activityCost_nonneg a.2, activityCost_le_three a.2⟩
  exact ⟨rfl, hvals, hbounds⟩

/-- Witness for C8 at a concrete two-activity card over `[0, 10)`. -/
theorem c8_estimator_mean_in_bounds_witness :
    estimate_cost_to_get_up_to_date ⟨[(⟨0, 5⟩, .primary), (⟨5, 10⟩, .nothing)]⟩
        ⟨0, 10⟩ =
      region_map_mean (([(⟨0, 5⟩, .primary),
          (⟨5, 10⟩, .nothing)] : List (region_t × activity_t)).foldl
        (estimateStep ⟨0, 10⟩) (region_map_init ⟨0, 10⟩ 3)) ∧
    (∀ pc ∈ ([(⟨0, 5⟩, .primary),
        (⟨5, 10⟩, .nothing)] : List (region_t × activity_t)).foldl
        (estimateStep ⟨0, 10⟩) (region_map_init ⟨0, 10⟩ 3),
      pc.2 = 3 ∨ ∃ a ∈ ([(⟨0, 5⟩, .primary),
        (⟨5, 10⟩, .nothing)] : List (region_t × activity_t)),
        pc.2 = activityCost a.2) ∧
    0 ≤ estimate_cost_to_get_up_to_date
        ⟨[(⟨0, 5⟩, .primary), (⟨5, 10⟩, .nothing)]⟩ ⟨0, 10⟩ ∧
    estimate_cost_to_get_up_to_date
        ⟨[(⟨0, 5⟩, .primary), (⟨5, 10⟩, .nothing)]⟩ ⟨0, 10⟩ ≤ 3 :=
  c8_estimator_mean_in_bounds ⟨[(⟨0, 5⟩, .primary), (⟨5, 10⟩, .nothing)]⟩
    ⟨0, 10⟩ (by decide) (by decide)

/-! ### C3: structural lemmas about the planner's data flow -/

theorem setInsert_mem (a b : name_string_t) (l : List name_string_t) :
    a ∈ setInsert b l ↔ a = b ∨ a ∈ l := by
  induction l with
  | nil => simp [setInsert]
  | cons t ts ih =>
    simp only [setInsert]
    split
    · simp
    · split
      · rename_i hlt heq
        subst heq
        simp only [List.mem_cons]
        tauto
      · simp only [List.mem_cons, ih]
        tauto

theorem mem_eraseShard (j : Nat) (q : pairing_t) :
    ∀ ps : List pairing_t, q ∈ eraseShard j ps → q ∈ ps := by
  intro ps
  induction ps with
  | nil => simp [eraseShard]
  | cons p ps ih =>
    simp only [eraseShard]
    split
    · exact fun h => List.mem_cons_of_mem p h
    · intro h
      rcases List.mem_cons.mp h with rfl | h'
      · exact List.mem_cons_self q ps
      · exact List.mem_cons_of_mem p (ih h')

theorem mem_mapUpdate (k : name_string_t)
    (f : server_pairings_t → server_pairings_t)
    (e : name_string_t × server_pairings_t) :
    ∀ m : List (name_string_t × server_pairings_t), e ∈ mapUpdate k f m →
      e ∈ m ∨ ∃ e0 ∈ m, e = (e0.1, f e0.2) := by
  intro m
  induction m with
  | nil => simp [mapUpdate]
  | cons e0 es ih =>
    simp only [mapUpdate]
    split
    · intro h
      rcases List.mem_cons.mp h with rfl | h'
      · exact Or.inr ⟨e0, List.mem_cons_self e0 es, rfl⟩
      · exact Or.inl (List.mem_cons_of_mem e0 h')
    · intro h
      rcases List.mem_cons.mp h with rfl | h'
      · exact Or.inl (List.mem_cons_self e es)
      · rcases ih h' with h'' | ⟨e1, he1, hf⟩
        · exact Or.inl (List.mem_cons_of_mem e0 h'')
        · exact Or.inr ⟨e1, List.mem_cons_of_mem e0 he1, hf⟩

/-- Members of the multiset built from the pairings map are values of the
map. -/
theorem mem_msBuild (sv : server_pairings_t) :
    ∀ (m : List (name_string_t × server_pairings_t))
      (init : List server_pairings_t),
      sv ∈ m.foldl
        (fun s x => if x.2.pairings.isEmpty then s else msInsert spLt x.2 s)
        init →
      sv ∈ init ∨ ∃ e ∈ m, sv = e.2 := by
  intro m
  induction m with
  | nil => exact fun init h => Or.inl h
  | cons e es ih =>
    intro init h
    rw [List.foldl_cons] at h
    rcases ih _ h with h' | ⟨e1, he1, hv⟩
    · by_cases he : e.2.pairings.isEmpty
      · rw [if_pos he] at h'
        exact Or.inl h'
      · rw [if_neg he] at h'
        rcases mem_msInsert.mp h' with rfl | h''
        · exact Or.inr ⟨e, List.mem_cons_self e es, rfl⟩
        · exact Or.inl h''
    · exact Or.inr ⟨e1, List.mem_cons_of_mem e he1, hv⟩

/-- Members of the per-server pairing fold come from the initial multiset or
are one of the inserted pairings. -/
theorem mem_pairing_fold (g : Nat → pairing_t) (q : pairing_t) :
    ∀ (L : List Nat) (init : List pairing_t),
      q ∈ L.foldl (fun ms k => msInsert pairingLt (g k) ms) init →
      q ∈ init ∨ ∃ k ∈ L, q = g k := by
  intro L
  induction L with
  | nil => exact fun init h => Or.inl h
  | cons k ks ih =>
    intro init h
    rw [List.foldl_cons] at h
    rcases ih _ h with h' | ⟨k1, hk1, hv⟩
    · rcases mem_msInsert.mp h' with rfl | h''
      · exact Or.inr ⟨k, List.mem_cons_self k ks, rfl⟩
      · exact Or.inl h''
    · exact Or.inr ⟨k1, List.mem_cons_of_mem k hk1, hv⟩

/-- Every pairing built by `buildServerPairing` has its shard index below
`num_shards`. -/
theorem buildServerPairing_shard_lt (table_id : Nat)
    (dm : List (name_string_t × reactor_business_card_t))
    (su : List (name_string_t × Int)) (sr : Nat → region_t) (S : Nat)
    (srv : name_string_t) :
    ∀ q ∈ (buildServerPairing table_id dm su sr S srv).pairings,
      q.shard < S := by
  intro q hq
  rcases mem_pairing_fold
      (fun shard => ⟨computeBackfillCost table_id dm sr shard srv, shard⟩) q
      (List.range S) [] hq with h' | ⟨k, hk, hv⟩
  · cases h'
  · rw [hv]
    exact List.mem_range.mp hk

/-- Index-based form of "every director is a member of its shard's replica
set". -/
abbrev dirOkIdx (cfg : table_config_t) : Prop :=
  ∀ (k : Nat) (sh : shard_t), cfg.shards[k]? = some sh →
    ∀ d ∈ sh.director_names, d ∈ sh.replica_names

theorem updateShard_length (cfg : table_config_t) (i : Nat)
    (f : shard_t → shard_t) :
    (updateShard cfg i f).shards.length = cfg.shards.length :=
  List.length_modify f i cfg.shards

theorem updateShard_getElem? (cfg : table_config_t) (i : Nat)
    (f : shard_t → shard_t) (k : Nat) :
    (updateShard cfg i f).shards[k]? =
      (fun sh => if i = k then f sh else sh) <$> cfg.shards[k]? :=
  List.getElem?_modify f i cfg.shards k

theorem applyReplicaPlacements_length (pls : List (Nat × name_string_t)) :
    ∀ cfg : table_config_t,
      (applyReplicaPlacements cfg pls).shards.length = cfg.shards.length := by
  induction pls with
  | nil => exact fun _ => rfl
  | cons pl pls ih =>
    intro cfg
    show (applyReplicaPlacements (updateShard cfg pl.1 _) pls).shards.length = _
    rw [ih, updateShard_length]

/-- Inserting replicas never breaks director membership. -/
theorem dirOkIdx_updateShard_replica (cfg : table_config_t) (i : Nat)
    (s : name_string_t) (h : dirOkIdx cfg) :
    dirOkIdx (updateShard cfg i (fun sh =>
      { sh with replica_names := setInsert s sh.replica_names })) := by
  intro k sh' hk d hd
  rw [updateShard_getElem?] at hk
  rcases Option.map_eq_some'.mp hk with ⟨sh0, hsh0, hv⟩
  by_cases hik : i = k
  · rw [if_pos hik] at hv
    subst hv
    exact (setInsert_mem d s sh0.replica_names).mpr
      (Or.inr (h k sh0 hsh0 d hd))
  · rw [if_neg hik] at hv
    subst hv
    exact h k sh0 hsh0 d hd

theorem dirOkIdx_applyReplicaPlacements (pls : List (Nat × name_string_t)) :
    ∀ cfg : table_config_t, dirOkIdx cfg →
      dirOkIdx (applyReplicaPlacements cfg pls) := by
  induction pls with
  | nil => exact fun _ h => h
  | cons pl pls ih =>
    intro cfg h
    exact ih _ (dirOkIdx_updateShard_replica cfg pl.1 pl.2 h)

/-- What one successful director placement does: lengths are preserved, the
pairings map is updated for the placed server, the placed shard (which must
have had no director) gets director list `[s]` with `s` inserted into its
replicas, and other shards are untouched. -/
theorem applyDirectorPlacement_some {cfg : table_config_t}
    {prs : List (name_string_t × server_pairings_t)} {j : Nat}
    {s : name_string_t} {cfg2 : table_config_t}
    {prs2 : List (name_string_t × server_pairings_t)}
    (h : applyDirectorPlacement (cfg, prs) (j, s) = some (cfg2, prs2)) :
    cfg2.shards.length = cfg.shards.length ∧
    prs2 = mapUpdate s (fun sp =>
      { sp with self_usage_cost := sp.self_usage_cost + PRIMARY_USAGE_COST,
                pairings := eraseShard j sp.pairings }) prs ∧
    ∀ (k : Nat) (sh0 : shard_t), cfg.shards[k]? = some sh0 →
      cfg2.shards[k]? = some (if j = k then
          ⟨setInsert s sh0.replica_names, sh0.director_names ++ [s]⟩
        else sh0) ∧
      (j = k → sh0.director_names = []) := by
  unfold applyDirectorPlacement at h
  dsimp only at h
  by_cases hg : ((cfg.shards.getD j default).director_names).isEmpty
  · rw [if_pos hg] at h
    injection h with h2
    rw [Prod.mk.injEq] at h2
    obtain ⟨hc, hp⟩ := h2
    subst hc
    subst hp
    refine ⟨updateShard_length cfg j _, rfl, ?_⟩
    intro k sh0 hsh0
    constructor
    · rw [updateShard_getElem?, hsh0]
      rfl
    · intro hjk
      subst hjk
      rw [List.getD_eq_getElem?_getD, hsh0] at hg
      exact List.isEmpty_iff.mp hg
  · rw [if_neg hg] at h
    cases h

/-- What a successful run of the director phase's placement list does: for
every shard of the result, either the shard was untouched (no placement for
it) or every director of the shard is a member of its replica set. -/
theorem applyDirectorPlacements_some :
    ∀ (l : List (Nat × name_string_t)) (cfg : table_config_t)
      (prs prs2 : List (name_string_t × server_pairings_t))
      (cfg2 : table_config_t),
      applyDirectorPlacements cfg prs l = some (cfg2, prs2) →
      cfg2.shards.length = cfg.shards.length ∧
      ∀ (k : Nat) (sh' : shard_t), cfg2.shards[k]? = some sh' →
        (cfg.shards[k]? = some sh' ∧ ∀ s, (k, s) ∉ l) ∨
        (∀ d ∈ sh'.director_names, d ∈ sh'.replica_names) := by
  intro l
  induction l with
  | nil =>
    intro cfg prs prs2 cfg2 h
    unfold applyDirectorPlacements at h
    injection h with h2
    rw [Prod.mk.injEq] at h2
    obtain ⟨hc, _hp⟩ := h2
    subst hc
    exact ⟨rfl, fun k sh' hk => Or.inl ⟨hk, by simp⟩⟩
  | cons pl pls ih =>
    obtain ⟨j, s⟩ := pl
    intro cfg prs prs2 cfg2 h
    unfold applyDirectorPlacements at h
    rcases hstep : applyDirectorPlacement (cfg, prs) (j, s) with _ | ⟨cfgm, prsm⟩
    · rw [hstep] at h
      cases h
    · rw [hstep] at h
      obtain ⟨hlen, hk⟩ := ih cfgm prsm prs2 cfg2 h
      obtain ⟨hlen1, _hprs, hsh⟩ := applyDirectorPlacement_some hstep
      refine ⟨hlen.trans hlen1, ?_⟩
      intro k sh' hk2
      rcases hk k sh' hk2 with ⟨hmid, hnot⟩ | hgood
      · have hklt : k < cfg.shards.length := by
          have := (List.getElem?_eq_some.mp hmid).1
          omega
        obtain ⟨sh0, hsh0⟩ : ∃ sh0, cfg.shards[k]? = some sh0 :=
          ⟨cfg.shards[k], List.getElem?_eq_getElem hklt⟩
        obtain ⟨hmid2, hdir⟩ := hsh k sh0 hsh0
        by_cases hjk : j = k
        · rw [if_pos hjk] at hmid2
          rw [hmid2] at hmid
          injection hmid with hmid
          subst hmid
          right
          intro d hd
          rw [hdir hjk] at hd
          simp only [List.nil_append, List.mem_singleton] at hd
          subst hd
          exact (setInsert_mem d d sh0.replica_names).mpr (Or.inl rfl)
        · rw [if_neg hjk] at hmid2
          rw [hmid2] at hmid
          injection hmid with hmid
          subst hmid
          left
          refine ⟨hsh0, fun s' hmem => ?_⟩
          rcases List.mem_cons.mp hmem with heq | hmem'
          · exact hjk (by injection heq with h1 _; exact h1.symm)
          · exact hnot s' hmem'
      · exact Or.inr hgood

/-- A successful director phase keeps all pairing shard indices below
`num_shards`. -/
theorem applyDirectorPlacements_shard_lt (S : Nat) :
    ∀ (l : List (Nat × name_string_t)) (cfg : table_config_t)
      (prs prs2 : List (name_string_t × server_pairings_t))
      (cfg2 : table_config_t),
      applyDirectorPlacements cfg prs l = some (cfg2, prs2) →
      (∀ e ∈ prs, ∀ q ∈ e.2.pairings, q.shard < S) →
      (∀ e ∈ prs2, ∀ q ∈ e.2.pairings, q.shard < S) := by
  intro l
  induction l with
  | nil =>
    intro cfg prs prs2 cfg2 h hb
    unfold applyDirectorPlacements at h
    injection h with h2
    rw [Prod.mk.injEq] at h2
    obtain ⟨_hc, hp⟩ := h2
    subst hp
    exact hb
  | cons pl pls ih =>
    obtain ⟨j, s⟩ := pl
    intro cfg prs prs2 cfg2 h hb
    unfold applyDirectorPlacements at h
    rcases hstep : applyDirectorPlacement (cfg, prs) (j, s) with _ | ⟨cfgm, prsm⟩
    · rw [hstep] at h
      cases h
    · rw [hstep] at h
      obtain ⟨_hlen1, hprs, _hsh⟩ := applyDirectorPlacement_some hstep
      refine ih cfgm prsm prs2 cfg2 h ?_
      intro e he q hq
      subst hprs
      rcases mem_mapUpdate _ _ e prs he with he' | ⟨e0, he0, rfl⟩
      · exact hb e he' q hq
      · exact hb e0 he0 q (mem_eraseShard j q e0.2.pairings hq)

theorem tagPairings_shard_lt (table_id : Nat)
    (dm : List (name_string_t × reactor_business_card_t))
    (su : List (name_string_t × Int)) (sr : Nat → region_t) (S : Nat)
    (servers : List name_string_t) :
    ∀ e ∈ tagPairings table_id dm su sr S servers,
      ∀ q ∈ e.2.pairings, q.shard < S := by
  intro e he q hq
  rcases List.mem_map.mp he with ⟨srv, _hsrv, rfl⟩
  exact buildServerPairing_shard_lt table_id dm su sr S srv q hq

theorem msBuild_shard_lt (S : Nat)
    (prs : List (name_string_t × server_pairings_t))
    (hb : ∀ e ∈ prs, ∀ q ∈ e.2.pairings, q.shard < S) :
    ∀ sv ∈ msBuild prs, ∀ q ∈ sv.pairings, q.shard < S := by
  intro sv hsv q hq
  rcases mem_msBuild sv prs [] hsv with h' | ⟨e, he, rfl⟩
  · cases h'
  · exact hb e he q hq

/-- Soundness of `pick_best_pairings` on a normal return. -/
theorem pick_best_pairings_sound (S R : Nat) (u : Int)
    (ms : List server_pairings_t) (l : List (Nat × name_string_t))
    (h : pick_best_pairings S R ms u = some l)
    (hb : ∀ sv ∈ ms, ∀ q ∈ sv.pairings, q.shard < S) :
    l.length = S * R ∧ (∀ j, j < S → countShardPair j l = R) ∧
      ∀ pr ∈ l, pr.1 < S := by
  unfold pick_best_pairings at h
  exact pickGo_sound S R u _ ms _ [] l h hb (by simp) (fun j => rfl)
    (fun j hj => Nat.zero_le R) (by simp)

/-- Properties of a successful `processTag` run: the shard count is kept, an
already director-consistent configuration stays so, and when the tag is the
director tag the resulting configuration is director-consistent outright
(every shard was assigned its single director together with a replica
entry). -/
theorem processTag_ok_props (table_id : Nat)
    (dm : List (name_string_t × reactor_business_card_t))
    (su : List (name_string_t × Int)) (sr : Nat → region_t) (S : Nat)
    (dtag : name_string_t)
    (swt : List (name_string_t × List name_string_t))
    (tag : name_string_t) (cnt : Nat) (cfg cfg'' : table_config_t)
    (h : processTag table_id dm su sr S dtag swt tag cnt cfg = .ok cfg'')
    (hlen : cfg.shards.length = S) :
    cfg''.shards.length = S ∧ (dirOkIdx cfg → dirOkIdx cfg'') ∧
      (tag = dtag → dirOkIdx cfg'') := by
  unfold processTag at h
  by_cases hins : ((swt.lookup tag).getD []).length < cnt
  · rw [if_pos hins] at h
    exact stepResult.noConfusion h
  · rw [if_neg hins] at h
    by_cases hdt : tag = dtag
    · simp only [if_pos hdt] at h
      rcases hpick : pick_best_pairings S 1
          (msBuild (tagPairings table_id dm su sr S
            ((swt.lookup tag).getD []))) PRIMARY_USAGE_COST with _ | l
      · rw [hpick] at h
        dsimp only at h
        exact stepResult.noConfusion h
      · rw [hpick] at h
        dsimp only at h
        rcases happ : applyDirectorPlacements cfg
            (tagPairings table_id dm su sr S ((swt.lookup tag).getD [])) l
          with _ | ⟨cfgm, prsm⟩
        · rw [happ] at h
          exact stepResult.noConfusion h
        · rw [happ] at h
          dsimp only at h
          rcases hpick2 : pick_best_pairings S (cnt - 1) (msBuild prsm)
              SECONDARY_USAGE_COST with _ | l2
          · rw [hpick2] at h
            exact stepResult.noConfusion h
          · rw [hpick2] at h
            injection h with h
            subst h
            obtain ⟨hsl, hcnt, hrange⟩ := pick_best_pairings_sound S 1
              PRIMARY_USAGE_COST _ l hpick
              (msBuild_shard_lt S _ (tagPairings_shard_lt table_id dm su sr S
                ((swt.lookup tag).getD [])))
            obtain ⟨hlenm, hdisj⟩ := applyDirectorPlacements_some l cfg _
              prsm cfgm happ
            have hdirm : dirOkIdx cfgm := by
              intro k sh' hk d hd
              rcases hdisj k sh' hk with ⟨horig, hnone⟩ | hgood
              · exfalso
                have hklt : k < S := by
                  have := (List.getElem?_eq_some.mp horig).1
                  omega
                have hcpos : 0 < countShardPair k l := by
                  rw [hcnt k hklt]
                  omega
                rcases List.countP_pos_iff.mp hcpos with ⟨pr, hpr, hprk⟩
                have : pr.1 = k := by simpa using hprk
                exact hnone pr.2 (by
                  have : pr = (k, pr.2) := by
                    rw [← this]
                  rw [← this]
                  exact hpr)
              · exact hgood d hd
            refine ⟨?_, ?_, ?_⟩
            · rw [applyReplicaPlacements_length, hlenm, hlen]
            · intro _hdir
              exact dirOkIdx_applyReplicaPlacements l2 cfgm hdirm
            · intro _heq
              exact dirOkIdx_applyReplicaPlacements l2 cfgm hdirm
    · simp only [if_neg hdt] at h
      rcases hpick2 : pick_best_pairings S (cnt - 0)
          (msBuild (tagPairings table_id dm su sr S
            ((swt.lookup tag).getD []))) SECONDARY_USAGE_COST with _ | l2
      · rw [hpick2] at h
        exact stepResult.noConfusion h
      · rw [hpick2] at h
        injection h with h
        subst h
        refine ⟨by rw [applyReplicaPlacements_length, hlen], ?_, ?_⟩
        · exact fun hdir => dirOkIdx_applyReplicaPlacements l2 cfg hdir
        · exact fun heq => absurd heq hdt

/-- Properties of a successful per-tag loop: the shard count is preserved,
the replica total accumulates the counts, director consistency is preserved,
and it is established outright when the director tag occurs with a non-zero
count. -/
theorem runTags_ok_props (table_id : Nat)
    (dm : List (name_string_t × reactor_business_card_t))
    (su : List (name_string_t × Int)) (sr : Nat → region_t) (S : Nat)
    (dtag : name_string_t)
    (swt : List (name_string_t × List name_string_t)) :
    ∀ (tags : List (name_string_t × Nat)) (cfg : table_config_t)
      (total : Nat) (cfg' : table_config_t) (total' : Nat),
      runTags table_id dm su sr S dtag swt tags cfg total = .ok cfg' total' →
      cfg.shards.length = S →
      cfg'.shards.length = S ∧
      total' = total + (tags.map (·.2)).sum ∧
      (dirOkIdx cfg → dirOkIdx cfg') ∧
      ((tags.lookup dtag).getD 0 ≠ 0 → dirOkIdx cfg') := by
  intro tags
  induction tags with
  | nil =>
    intro cfg total cfg' total' h hlen
    unfold runTags at h
    injection h with h1 h2
    subst h1
    subst h2
    exact ⟨hlen, by simp, fun hd => hd, by simp [List.lookup]⟩
  | cons e rest ih =>
    obtain ⟨tag, cnt⟩ := e
    intro cfg total cfg' total' h hlen
    unfold runTags at h
    by_cases hc : cnt = 0
    · rw [if_pos hc] at h
      obtain ⟨L, T, P, D⟩ := ih cfg total cfg' total' h hlen
      refine ⟨L, by subst hc; simpa using T, P, ?_⟩
      intro hlk
      by_cases htag : tag = dtag
      · exfalso
        subst hc
        rw [List.lookup_cons] at hlk
        simp [htag] at hlk
      · refine D ?_
        have hbt : (dtag == tag) = false :=
          beq_eq_false_iff_ne.mpr (fun hh => htag hh.symm)
        rw [List.lookup_cons, hbt] at hlk
        exact hlk
    · rw [if_neg hc] at h
      rcases hstep : processTag table_id dm su sr S dtag swt tag cnt cfg
        with cfg'' | ⟨c, m⟩ | _
      · rw [hstep] at h
        obtain ⟨PL, PP, PD⟩ := processTag_ok_props table_id dm su sr S dtag
          swt tag cnt cfg cfg'' hstep hlen
        obtain ⟨L, T, P, D⟩ := ih cfg'' (total + cnt) cfg' total' h PL
        refine ⟨L, by simp at T ⊢; omega, fun hd => P (PP hd), ?_⟩
        intro _hlk
        by_cases htag : tag = dtag
        · exact P (PD htag)
        · refine D ?_
          have hbt : (dtag == tag) = false :=
            beq_eq_false_iff_ne.mpr (fun hh => htag hh.symm)
          rw [List.lookup_cons, hbt] at _hlk
          exact _hlk
      · rw [hstep] at h
        exact tagOutcome.noConfusion h
      · rw [hstep] at h
        exact tagOutcome.noConfusion h

theorem resizeShards_length (cfg : table_config_t) (n : Nat) :
    (resizeShards cfg n).shards.length = n := by
  simp only [resizeShards, List.length_append, List.length_take,
    List.length_replicate]
  omega

/-- Reading the final `guarantee` loop: if it passes and the shard vector has
`num_shards` entries, every shard has `total` replicas and exactly one
director. -/
theorem guaranteesOk_spec (S total : Nat) (cfg : table_config_t)
    (h : guaranteesOk S total cfg = true) (hlen : cfg.shards.length = S) :
    ∀ sh ∈ cfg.shards,
      sh.replica_names.length = total ∧ sh.director_names.length = 1 := by
  intro sh hsh
  obtain ⟨k, hklt, hk⟩ := List.getElem_of_mem hsh
  have hkS : k < S := by omega
  have hb := List.all_eq_true.mp h k (List.mem_range.mpr hkS)
  rw [List.getD_eq_getElem?_getD, List.getElem?_eq_getElem hklt, hk] at hb
  simp only [Option.getD_some, Bool.and_eq_true, beq_iff_eq] at hb
  exact hb

/-- A passing validation means the director tag occurs in the replica spec
with a non-zero count. -/
theorem validate_none_director (params : table_generate_config_params_t)
    (swt : List (name_string_t × List name_string_t))
    (h : validate_params params swt = none) :
    ((params.num_replicas.lookup params.director_tag).getD 0) ≠ 0 := by
  unfold validate_params at h
  by_cases h1 : params.num_shards = 0
  · rw [if_pos h1] at h
    cases h
  · rw [if_neg h1] at h
    by_cases h2 : 32 < params.num_shards
    · rw [if_pos h2] at h
      cases h
    · rw [if_neg h2] at h
      by_cases h3 : ((params.num_replicas.lookup params.director_tag).getD 0)
          = 0
      · rw [if_pos h3] at h
        cases h
      · exact h3

/-- C3: whenever `table_generate_config` succeeds, the output has
`num_shards` shard plans, each with exactly one director, the director a
member of the shard's replica set, and exactly `Σ num_replicas[tag]`
replicas. -/
theorem c3_success_postconditions (nc : server_name_client_t) (table_id : Nat)
    (dv : directory_t) (su : List (name_string_t × Int))
    (params : table_generate_config_params_t) (sr : Nat → region_t)
    (ci cfg : table_config_t)
    (h : table_generate_config nc table_id dv su params sr ci =
      .success cfg) :
    cfg.shards.length = params.num_shards ∧
    ∀ sh ∈ cfg.shards,
      sh.director_names.length = 1 ∧
      (∀ d ∈ sh.director_names, d ∈ sh.replica_names) ∧
      sh.replica_names.length = (params.num_replicas.map (·.2)).sum := by
  unfold table_generate_config at h
  dsimp only at h
  rcases hv : validate_params params (buildServersWithTags nc params)
    with _ | msg
  swap
  · rw [hv] at h
    exact gen_result.noConfusion h
  rw [hv] at h
  dsimp only at h
  rcases hf : fetchDirectory nc table_id dv (buildServersWithTags nc params)
    with msg | dm
  · rw [hf] at h
    exact gen_result.noConfusion h
  · rw [hf] at h
    dsimp only at h
    rcases hr : runTags table_id dm su sr params.num_shards
        params.director_tag (buildServersWithTags nc params)
        params.num_replicas (resizeShards ci params.num_shards) 0
      with ⟨cfg1, total⟩ | ⟨c, m⟩ | _
    rotate_left
    · rw [hr] at h
      exact gen_result.noConfusion h
    · rw [hr] at h
      exact gen_result.noConfusion h
    · rw [hr] at h
      dsimp only at h
      by_cases hg : guaranteesOk params.num_shards total cfg1
      · rw [if_pos hg] at h
        injection h with h
        subst h
        obtain ⟨L, T, _P, D⟩ := runTags_ok_props table_id dm su sr
          params.num_shards params.director_tag
          (buildServersWithTags nc params) params.num_replicas
          (resizeShards ci params.num_shards) 0 cfg1 total hr
          (resizeShards_length ci params.num_shards)
        have hdir : dirOkIdx cfg1 :=
          D (validate_none_director params (buildServersWithTags nc params) hv)
        have htot : total = (params.num_replicas.map (·.2)).sum := by
          simpa using T
        have hguar := guaranteesOk_spec params.num_shards total cfg1 hg L
        refine ⟨L, fun sh hsh => ?_⟩
        obtain ⟨hrep, hdirlen⟩ := hguar sh hsh
        obtain ⟨k, hklt, hk⟩ := List.getElem_of_mem hsh
        have hksome : cfg1.shards[k]? = some sh := by
          rw [List.getElem?_eq_getElem hklt, hk]
        exact ⟨hdirlen, fun d hd => hdir k sh hksome d hd,
          by rw [hrep, htot]⟩
      · rw [if_neg hg] at h
        exact gen_result.noConfusion h

/-- Witness for C3 at scenario S2's concrete inputs. -/
theorem c3_success_postconditions_witness :
    (⟨[⟨["A"], ["A"]⟩, ⟨["B"], ["B"]⟩, ⟨["C"], ["C"]⟩]⟩ :
        table_config_t).shards.length = paramsS2.num_shards ∧
    ∀ sh ∈ (⟨[⟨["A"], ["A"]⟩, ⟨["B"], ["B"]⟩, ⟨["C"], ["C"]⟩]⟩ :
        table_config_t).shards,
      sh.director_names.length = 1 ∧
      (∀ d ∈ sh.director_names, d ∈ sh.replica_names) ∧
      sh.replica_names.length = (paramsS2.num_replicas.map (·.2)).sum :=
  c3_success_postconditions ncS2 nil_uuid ⟨[]⟩ [] paramsS2 demoRange ⟨[]⟩
    ⟨[⟨["A"], ["A"]⟩, ⟨["B"], ["B"]⟩, ⟨["C"], ["C"]⟩]⟩ (by decide)

/-- One-step equation of the per-tag loop on a cons cell. -/
theorem runTags_cons (table_id : Nat)
    (dm : List (name_string_t × reactor_business_card_t))
    (su : List (name_string_t × Int)) (sr : Nat → region_t) (S : Nat)
    (dtag : name_string_t)
    (swt : List (name_string_t × List name_string_t))
    (tag : name_string_t) (cnt : Nat) (rest : List (name_string_t × Nat))
    (cfg : table_config_t) (total : Nat) :
    runTags table_id dm su sr S dtag swt ((tag, cnt) :: rest) cfg total =
      if cnt = 0 then runTags table_id dm su sr S dtag swt rest cfg total
      else
        match processTag table_id dm su sr S dtag swt tag cnt cfg with
        | .fail c m => .fail c m
        | .crash => .crash
        | .ok cfg'' =>
          runTags table_id dm su sr S dtag swt rest cfg'' (total + cnt) :=
  rfl

/-- The per-tag loop processes a concatenation sequentially, threading the
configuration and total through; failures and crashes short-circuit. -/
theorem runTags_append (table_id : Nat)
    (dm : List (name_string_t × reactor_business_card_t))
    (su : List (name_string_t × Int)) (sr : Nat → region_t) (S : Nat)
    (dtag : name_string_t)
    (swt : List (name_string_t × List name_string_t)) :
    ∀ (pre post : List (name_string_t × Nat)) (cfg : table_config_t)
      (total : Nat),
      runTags table_id dm su sr S dtag swt (pre ++ post) cfg total =
        match runTags table_id dm su sr S dtag swt pre cfg total with
        | .ok cfg' total' =>
          runTags table_id dm su sr S dtag swt post cfg' total'
        | .fail c m => .fail c m
        | .crash => .crash := by
  intro pre
  induction pre with
  | nil => intro post cfg total; rfl
  | cons e rest ih =>
    obtain ⟨tag, cnt⟩ := e
    intro post cfg total
    rw [List.cons_append, runTags_cons, runTags_cons]
    by_cases hc : cnt = 0
    · rw [if_pos hc, if_pos hc]
      exact ih post cfg total
    · rw [if_neg hc, if_neg hc]
      rcases hstep : processTag table_id dm su sr S dtag swt tag cnt cfg
        with cfg'' | ⟨c, m⟩ | _ <;> dsimp only
      · exact ih post cfg'' (total + cnt)

/-- C10: when the insufficient-servers check fails for a tag that is not the
first count>0 tag, `table_generate_config` returns a failure whose carried
`config_out` state is exactly the state produced by processing the earlier
tags (the resized `num_shards`-entry shard vector with every placement made
for those tags) — nothing is rolled back. -/
theorem c10_no_rollback_on_insufficient (nc : server_name_client_t)
    (table_id : Nat) (dv : directory_t) (su : List (name_string_t × Int))
    (params : table_generate_config_params_t) (sr : Nat → region_t)
    (ci : table_config_t)
    (dm : List (name_string_t × reactor_business_card_t))
    (pre rest : List (name_string_t × Nat)) (tag : name_string_t) (cnt : Nat)
    (cfg1 : table_config_t) (tot1 : Nat)
    (hsplit : params.num_replicas = pre ++ (tag, cnt) :: rest)
    (hv : validate_params params (buildServersWithTags nc params) = none)
    (hf : fetchDirectory nc table_id dv (buildServersWithTags nc params) =
      .ok dm)
    (hpre : runTags table_id dm su sr params.num_shards params.director_tag
      (buildServersWithTags nc params) pre
      (resizeShards ci params.num_shards) 0 = .ok cfg1 tot1)
    (hcnt : cnt ≠ 0)
    (hins : (((buildServersWithTags nc params).lookup tag).getD []).length <
      cnt)
    (_hearlier : ∃ e ∈ pre, e.2 ≠ 0) :
    table_generate_config nc table_id dv su params sr ci =
      .failure cfg1 (msgInsufficient cnt tag
        (((buildServersWithTags nc params).lookup tag).getD []).length) ∧
    cfg1.shards.length = params.num_shards := by
  have hlen1 : cfg1.shards.length = params.num_shards :=
    (runTags_ok_props table_id dm su sr params.num_shards params.director_tag
      (buildServersWithTags nc params) pre (resizeShards ci params.num_shards)
      0 cfg1 tot1 hpre (resizeShards_length ci params.num_shards)).1
  refine ⟨?_, hlen1⟩
  unfold table_generate_config
  dsimp only
  rw [hv, hf]
  dsimp only
  rw [hsplit, runTags_append, hpre]
  dsimp only
  rw [runTags_cons, if_neg hcnt]
  have hfail : processTag table_id dm su sr params.num_shards
      params.director_tag (buildServersWithTags nc params) tag cnt cfg1 =
      .fail cfg1 (msgInsufficient cnt tag
        (((buildServersWithTags nc params).lookup tag).getD []).length) := by
    unfold processTag
    rw [if_pos hins]
  rw [hfail]

/-- Name client for the C10 witness: tag `t1` holds server A, tag `t2` holds
server B. -/
def nc10 : server_name_client_t :=
  { servers_with_tag := fun t =>
      if t = "t1" then ["A"] else if t = "t2" then ["B"] else []
    name_to_machine_id := []
    peer_id_for_machine_id := fun _ => none }

/-- Parameters for the C10 witness: one shard, `t1` wants 1 replica (director
tag), `t2` wants 2 replicas but has only one server. -/
def params10 : table_generate_config_params_t :=
  { num_shards := 1, num_replicas := [("t1", 1), ("t2", 2)],
    director_tag := "t1" }

/-- Witness for C10: after `t1`'s director and replica placements, `t2`'s
insufficient-servers check fails and the returned failure carries the
configuration with `t1`'s placements intact. -/
theorem c10_no_rollback_on_insufficient_witness :
    table_generate_config nc10 nil_uuid ⟨[]⟩ [] params10 demoRange ⟨[]⟩ =
      .failure ⟨[⟨["A"], ["A"]⟩]⟩ (msgInsufficient 2 "t2"
        (((buildServersWithTags nc10 params10).lookup "t2").getD []).length) ∧
    (⟨[⟨["A"], ["A"]⟩]⟩ : table_config_t).shards.length =
      params10.num_shards :=
  c10_no_rollback_on_insufficient nc10 nil_uuid ⟨[]⟩ [] params10 demoRange
    ⟨[]⟩ [] [("t1", 1)] [] "t2" 2 ⟨[⟨["A"], ["A"]⟩]⟩ 1 rfl (by decide) rfl
    (by decide) (by decide) (by decide) ⟨("t1", 1), by decide, by decide⟩

/-! ### C7: substring containment machinery for error messages -/

/-- Substring test on character lists. -/
def hasSubstr : List Char → List Char → Bool
  | [], t => t.isEmpty
  | c :: cs, t => List.isPrefixOf t (c :: cs) || hasSubstr cs t

/-- `strContains m t` holds when `t` occurs contiguously inside `m`. -/
def strContains (m t : String) : Bool :=
  hasSubstr m.data t.data

theorem isPrefixOf_self_append (t r : List Char) :
    List.isPrefixOf t (t ++ r) = true := by
  induction t with
  | nil => simp [List.isPrefixOf]
  | cons c ts ih => simpa [List.isPrefixOf] using ih

theorem isPrefixOf_extend (t : List Char) :
    ∀ (m z : List Char), List.isPrefixOf t m = true →
      List.isPrefixOf t (m ++ z) = true := by
  induction t with
  | nil => intro m z _h; simp [List.isPrefixOf]
  | cons c ts ih =>
    intro m z h
    match m with
    | [] => exact absurd h (by simp [List.isPrefixOf])
    | d :: ms =>
      simp only [List.isPrefixOf, Bool.and_eq_true] at h
      simp only [List.cons_append, List.isPrefixOf, Bool.and_eq_true]
      exact ⟨h.1, ih ms z h.2⟩

theorem hasSubstr_nil_right : ∀ z : List Char, hasSubstr z [] = true := by
  intro z
  cases z with
  | nil => rfl
  | cons c cs => simp [hasSubstr, List.isPrefixOf]

theorem hasSubstr_append_left (t : List Char) :
    ∀ (m z : List Char), hasSubstr m t = true → hasSubstr (m ++ z) t = true := by
  intro m
  induction m with
  | nil =>
    intro z h
    have : t = [] := List.isEmpty_iff.mp h
    subst this
    exact hasSubstr_nil_right z
  | cons c cs ih =>
    intro z h
    simp only [hasSubstr, Bool.or_eq_true] at h
    rcases h with h | h
    · simp only [List.cons_append, hasSubstr, Bool.or_eq_true]
      exact Or.inl (by simpa using isPrefixOf_extend t (c :: cs) z h)
    · simp only [List.cons_append, hasSubstr, Bool.or_eq_true]
      exact Or.inr (ih z h)

theorem hasSubstr_self_append (t r : List Char) :
    hasSubstr (t ++ r) t = true := by
  cases t with
  | nil => exact hasSubstr_nil_right r
  | cons c ts =>
    simp only [List.cons_append, hasSubstr, Bool.or_eq_true]
    exact Or.inl (by simpa using isPrefixOf_self_append (c :: ts) r)

theorem hasSubstr_append_right (t : List Char) :
    ∀ (x y : List Char), hasSubstr y t = true →
      hasSubstr (x ++ y) t = true := by
  intro x
  induction x with
  | nil => exact fun y h => h
  | cons c cs ih =>
    intro y h
    simp only [List.cons_append, hasSubstr, Bool.or_eq_true]
    exact Or.inr (ih y h)

theorem string_data_append (a b : String) : (a ++ b).data = a.data ++ b.data :=
  rfl

theorem strContains_self (t : String) : strContains t t = true := by
  have := hasSubstr_self_append t.data []
  simpa using this

theorem strContains_append_left (m z t : String)
    (h : strContains m t = true) : strContains (m ++ z) t = true := by
  unfold strContains at h ⊢
  rw [string_data_append]
  exact hasSubstr_append_left t.data m.data z.data h

theorem strContains_append_right (x y t : String)
    (h : strContains y t = true) : strContains (x ++ y) t = true := by
  unfold strContains at h ⊢
  rw [string_data_append]
  exact hasSubstr_append_right t.data x.data y.data h

/-- The overlap error message mentions both tag names and the server name. -/
theorem msgOverlap_mentions (t1 t0 s : name_string_t) :
    strContains (msgOverlap t1 t0 s) t1 = true ∧
    strContains (msgOverlap t1 t0 s) t0 = true ∧
    strContains (msgOverlap t1 t0 s) s = true := by
  unfold msgOverlap
  refine ⟨?_, ?_, ?_⟩
  · apply strContains_append_left
    apply strContains_append_left
    apply strContains_append_left
    apply strContains_append_left
    apply strContains_append_left
    apply strContains_append_left
    apply strContains_append_left
    apply strContains_append_right
    exact strContains_self t1
  · apply strContains_append_left
    apply strContains_append_left
    apply strContains_append_left
    apply strContains_append_left
    apply strContains_append_left
    apply strContains_append_right
    exact strContains_self t0
  · apply strContains_append_left
    apply strContains_append_left
    apply strContains_append_right
    exact strContains_self s

/-! ### C7: analysis of the validator's claiming loop -/

theorem lookup_mem {α β : Type} [BEq α] [LawfulBEq α] {l : List (α × β)}
    {k : α} {b : β} (h : l.lookup k = some b) : (k, b) ∈ l := by
  obtain ⟨l1, l2, rfl, _⟩ := List.lookup_eq_some_iff.mp h
  simp

theorem lookup_self_of_nodup :
    ∀ L : List (name_string_t × Nat), (L.map (·.1)).Nodup →
      ∀ e ∈ L, L.lookup e.1 = some e.2 := by
  intro L
  induction L with
  | nil => intro _ e he; cases he
  | cons hd tl ih =>
    intro hnd e he
    rw [List.map_cons] at hnd
    obtain ⟨hhd, htl⟩ := List.nodup_cons.mp hnd
    rcases List.mem_cons.mp he with rfl | he'
    · obtain ⟨k, v⟩ := e
      simp [List.lookup_cons]
    · have hne : e.1 ≠ hd.1 := fun hh =>
        hhd (hh ▸ List.mem_map_of_mem (·.1) he')
    -- lookup over the head passes through
      obtain ⟨k, v⟩ := hd
      rw [List.lookup_cons]
      have hb : (e.1 == k) = false := beq_eq_false_iff_ne.mpr hne
      rw [hb]
      exact ih htl e he'

/-- A failing inner claiming loop over a duplicate-free server set reports a
server of that set that was already claimed. -/
theorem claimServers_error (tag : name_string_t) :
    ∀ (servers : List name_string_t)
      (claimed : List (name_string_t × name_string_t)) (msg : String),
      claimServers tag servers claimed = .error msg →
      servers.Nodup →
      ∃ s t0, msg = msgOverlap tag t0 s ∧ s ∈ servers ∧
        claimed.lookup s = some t0 := by
  intro servers
  induction servers with
  | nil =>
    intro claimed msg h _
    exact Except.noConfusion h
  | cons srv more ih =>
    intro claimed msg h hnd
    unfold claimServers at h
    obtain ⟨hsrv, hnd'⟩ := List.nodup_cons.mp hnd
    rcases hl : claimed.lookup srv with _ | tag0
    · rw [hl] at h
      obtain ⟨s, t0, hm, hs, hc⟩ := ih ((srv, tag) :: claimed) msg h hnd'
      have hne : s ≠ srv := fun hh => hsrv (hh ▸ hs)
      rw [List.lookup_cons, beq_eq_false_iff_ne.mpr hne] at hc
      exact ⟨s, t0, hm, List.mem_cons_of_mem srv hs, hc⟩
    · rw [hl] at h
      injection h with h
      exact ⟨srv, tag0, h.symm, List.mem_cons_self srv more, hl⟩

/-- What a successful inner claiming loop does to the claimed map: old claims
persist, every server of the set is claimed, and new claims are for this
tag's servers. -/
theorem claimServers_ok (tag : name_string_t) :
    ∀ (servers : List name_string_t)
      (claimed claimed' : List (name_string_t × name_string_t)),
      claimServers tag servers claimed = .ok claimed' →
      (∀ s t0, claimed.lookup s = some t0 → claimed'.lookup s = some t0) ∧
      (∀ s ∈ servers, ∃ t0, claimed'.lookup s = some t0) ∧
      (∀ s t0, claimed'.lookup s = some t0 →
        claimed.lookup s = some t0 ∨ (t0 = tag ∧ s ∈ servers)) := by
  intro servers
  induction servers with
  | nil =>
    intro claimed claimed' h
    injection h with h
    subst h
    exact ⟨fun s t0 hc => hc, fun s hs => absurd hs (List.not_mem_nil s),
      fun s t0 hc => Or.inl hc⟩
  | cons srv more ih =>
    intro claimed claimed' h
    unfold claimServers at h
    rcases hl : claimed.lookup srv with _ | tag0
    · rw [hl] at h
      obtain ⟨M, C, Rv⟩ := ih ((srv, tag) :: claimed) claimed' h
      have hcons : ∀ s t0, claimed.lookup s = some t0 →
          ((srv, tag) :: claimed).lookup s = some t0 := by
        intro s t0 hc
        have hne : s ≠ srv := fun hh => by rw [hh, hl] at hc; cases hc
        rw [List.lookup_cons, beq_eq_false_iff_ne.mpr hne]
        exact hc
      refine ⟨fun s t0 hc => M s t0 (hcons s t0 hc), ?_, ?_⟩
      · intro s hs
        rcases List.mem_cons.mp hs with rfl | hs'
        · exact ⟨tag, M s tag (by simp [List.lookup_cons])⟩
        · exact C s hs'
      · intro s t0 hc
        rcases Rv s t0 hc with hcons' | ⟨rfl, hsm⟩
        · by_cases hss : s = srv
          · subst hss
            rw [List.lookup_cons] at hcons'
            simp only [beq_self_eq_true] at hcons'
            injection hcons' with hcons'
            exact Or.inr ⟨hcons'.symm, List.mem_cons_self s more⟩
          · rw [List.lookup_cons, beq_eq_false_iff_ne.mpr hss] at hcons'
            exact Or.inl hcons'
        · exact Or.inr ⟨rfl, List.mem_cons_of_mem srv hsm⟩
    · rw [hl] at h
      exact Except.noConfusion h

/-- The inner claiming loop fails as soon as one of the tag's servers is
already claimed. -/
theorem claimServers_hit (tag s t' : name_string_t) :
    ∀ (servers : List name_string_t)
      (claimed : List (name_string_t × name_string_t)),
      s ∈ servers → claimed.lookup s = some t' →
      ∃ msg, claimServers tag servers claimed = .error msg := by
  intro servers
  induction servers with
  | nil => intro claimed hs _; cases hs
  | cons srv more ih =>
    intro claimed hs hc
    rcases hl : claimed.lookup srv with _ | tag0
    · have hne : s ≠ srv := fun hh => by rw [hh, hl] at hc; cases hc
      have hs' : s ∈ more := by
        rcases List.mem_cons.mp hs with rfl | hs'
        · exact absurd rfl hne
        · exact hs'
      obtain ⟨msg, hmsg⟩ := ih ((srv, tag) :: claimed) hs'
        (by rw [List.lookup_cons, beq_eq_false_iff_ne.mpr hne]; exact hc)
      refine ⟨msg, ?_⟩
      unfold claimServers
      rw [hl]
      exact hmsg
    · refine ⟨msgOverlap tag tag0 srv, ?_⟩
      unfold claimServers
      rw [hl]

/-- A failing outer claiming loop produces an overlap message naming two
distinct tags that both occur with non-zero count (looked up in `L₀`, the
full replica spec) and a server contained in both tags' sets. -/
theorem claimAll_error_props (L₀ : List (name_string_t × Nat))
    (swt : List (name_string_t × List name_string_t))
    (hsets : ∀ t, ((swt.lookup t).getD [] : List name_string_t).Nodup) :
    ∀ (L : List (name_string_t × Nat))
      (claimed : List (name_string_t × name_string_t)) (msg : String),
      claimAll swt L claimed = .error msg →
      (∀ e ∈ L, L₀.lookup e.1 = some e.2) →
      (L.map (·.1)).Nodup →
      (∀ s t0, claimed.lookup s = some t0 →
        (∃ c0, L₀.lookup t0 = some c0 ∧ c0 ≠ 0) ∧
        s ∈ (swt.lookup t0).getD [] ∧ t0 ∉ L.map (·.1)) →
      ∃ t1' t2' s', msg = msgOverlap t1' t2' s' ∧ t1' ≠ t2' ∧
        (∃ c, L₀.lookup t1' = some c ∧ c ≠ 0) ∧
        (∃ c, L₀.lookup t2' = some c ∧ c ≠ 0) ∧
        s' ∈ (swt.lookup t1').getD [] ∧ s' ∈ (swt.lookup t2').getD [] := by
  intro L
  induction L with
  | nil =>
    intro claimed msg h _ _ _
    exact Except.noConfusion h
  | cons e rest ih =>
    obtain ⟨tag, cnt⟩ := e
    intro claimed msg h hentries hnd hinv
    unfold claimAll at h
    rw [List.map_cons] at hnd
    obtain ⟨hhd, hnd'⟩ := List.nodup_cons.mp hnd
    by_cases hc : cnt = 0
    · rw [if_pos hc] at h
      refine ih claimed msg h
        (fun e he => hentries e (List.mem_cons_of_mem _ he)) hnd' ?_
      intro s t0 hl
      obtain ⟨h1, h2, h3⟩ := hinv s t0 hl
      refine ⟨h1, h2, fun hh => h3 ?_⟩
      rw [List.map_cons]
      exact List.mem_cons_of_mem _ hh
    · rw [if_neg hc] at h
      rcases hcs : claimServers tag ((swt.lookup tag).getD []) claimed
        with msg2 | claimed'
      · rw [hcs] at h
        injection h with h
        subst h
        obtain ⟨s, t0, hm, hs, hcl⟩ :=
          claimServers_error tag _ claimed msg2 hcs (hsets tag)
        obtain ⟨h1, h2, h3⟩ := hinv s t0 hcl
        have htag : L₀.lookup tag = some cnt :=
          hentries (tag, cnt) (List.mem_cons_self _ _)
        have hne : tag ≠ t0 := by
          intro hh
          refine h3 ?_
          rw [List.map_cons, ← hh]
          exact List.mem_cons_self _ _
        exact ⟨tag, t0, s, hm, hne, ⟨cnt, htag, hc⟩, h1, hs, h2⟩
      · rw [hcs] at h
        obtain ⟨_M, _C, Rv⟩ := claimServers_ok tag _ claimed claimed' hcs
        refine ih claimed' msg h
          (fun e he => hentries e (List.mem_cons_of_mem _ he)) hnd' ?_
        intro s t0 hl
        rcases Rv s t0 hl with hold | ⟨rfl, hsmem⟩
        · obtain ⟨h1, h2, h3⟩ := hinv s t0 hold
          refine ⟨h1, h2, fun hh => h3 ?_⟩
          rw [List.map_cons]
          exact List.mem_cons_of_mem _ hh
        · exact ⟨⟨cnt, hentries (t0, cnt) (List.mem_cons_self _ _), hc⟩,
            hsmem, hhd⟩

/-- Once a server shared with a later non-zero tag is claimed, the outer loop
is bound to fail. -/
theorem claimAll_hit (swt : List (name_string_t × List name_string_t))
    (t2 : name_string_t) (c2 : Nat) (s t' : name_string_t) :
    ∀ (L : List (name_string_t × Nat))
      (claimed : List (name_string_t × name_string_t)),
      (t2, c2) ∈ L → c2 ≠ 0 → s ∈ (swt.lookup t2).getD [] →
      claimed.lookup s = some t' →
      ∃ msg, claimAll swt L claimed = .error msg := by
  intro L
  induction L with
  | nil => intro claimed hm _ _ _; cases hm
  | cons e rest ih =>
    obtain ⟨tag, cnt⟩ := e
    intro claimed hm hc2 hs hcl
    by_cases hc : cnt = 0
    · rcases List.mem_cons.mp hm with heq | hm'
      · injection heq with h1 h2
        exact absurd (h2.trans hc) hc2
      · obtain ⟨msg, hmsg⟩ := ih claimed hm' hc2 hs hcl
        refine ⟨msg, ?_⟩
        unfold claimAll
        rw [if_pos hc]
        exact hmsg
    · rcases hcs : claimServers tag ((swt.lookup tag).getD []) claimed
        with msg2 | claimed'
      · refine ⟨msg2, ?_⟩
        unfold claimAll
        rw [if_neg hc, hcs]
      · by_cases ht : t2 = tag
        · exfalso
          obtain ⟨msg, hmsg⟩ :=
            claimServers_hit tag s t' _ claimed (ht ▸ hs) hcl
          rw [hmsg] at hcs
          cases hcs
        · rcases List.mem_cons.mp hm with heq | hm'
          · injection heq with h1 _
            exact absurd h1 ht
          · obtain ⟨M, _, _⟩ := claimServers_ok tag _ claimed claimed' hcs
            obtain ⟨msg, hmsg⟩ := ih claimed' hm' hc2 hs (M s t' hcl)
            refine ⟨msg, ?_⟩
            unfold claimAll
            rw [if_neg hc, hcs]
            exact hmsg

/-- Two distinct non-zero tags sharing a server make the outer claiming loop
fail. -/
theorem claimAll_overlap_error (swt : List (name_string_t × List name_string_t))
    (t1 t2 : name_string_t) (c1 c2 : Nat) (s : name_string_t)
    (h12 : t1 ≠ t2) (hc1 : c1 ≠ 0) (hc2 : c2 ≠ 0)
    (hs1 : s ∈ (swt.lookup t1).getD []) (hs2 : s ∈ (swt.lookup t2).getD []) :
    ∀ (L : List (name_string_t × Nat))
      (claimed : List (name_string_t × name_string_t)),
      (t1, c1) ∈ L → (t2, c2) ∈ L → (L.map (·.1)).Nodup →
      ∃ msg, claimAll swt L claimed = .error msg := by
  intro L
  induction L with
  | nil => intro claimed hm1 _ _; cases hm1
  | cons e rest ih =>
    obtain ⟨tag, cnt⟩ := e
    intro claimed hm1 hm2 hnd
    rw [List.map_cons] at hnd
    obtain ⟨hhd, hnd'⟩ := List.nodup_cons.mp hnd
    rcases hcl : claimed.lookup s with _ | t'
    rotate_left
    · exact claimAll_hit swt t2 c2 s t' ((tag, cnt) :: rest) claimed hm2 hc2
        hs2 hcl
    by_cases hc : cnt = 0
    · rcases List.mem_cons.mp hm1 with heq | hm1'
      · injection heq with _ h2
        exact absurd (h2.trans hc) hc1
      rcases List.mem_cons.mp hm2 with heq | hm2'
      · injection heq with _ h2
        exact absurd (h2.trans hc) hc2
      obtain ⟨msg, hmsg⟩ := ih claimed hm1' hm2' hnd'
      refine ⟨msg, ?_⟩
      unfold claimAll
      rw [if_pos hc]
      exact hmsg
    · rcases hcs : claimServers tag ((swt.lookup tag).getD []) claimed
        with msg2 | claimed'
      · refine ⟨msg2, ?_⟩
        unfold claimAll
        rw [if_neg hc, hcs]
      · by_cases ht1 : tag = t1
        · obtain ⟨_M, C, _Rv⟩ := claimServers_ok tag _ claimed claimed' hcs
          obtain ⟨t0, ht0⟩ := C s (by rw [ht1]; exact hs1)
          rcases List.mem_cons.mp hm2 with heq | hm2'
          · injection heq with hh _
            exact absurd (hh.trans ht1).symm h12
          · obtain ⟨msg, hmsg⟩ :=
              claimAll_hit swt t2 c2 s t0 rest claimed' hm2' hc2 hs2 ht0
            refine ⟨msg, ?_⟩
            unfold claimAll
            rw [if_neg hc, hcs]
            exact hmsg
        · by_cases ht2 : tag = t2
          · obtain ⟨_M, C, _Rv⟩ := claimServers_ok tag _ claimed claimed' hcs
            obtain ⟨t0, ht0⟩ := C s (by rw [ht2]; exact hs2)
            rcases List.mem_cons.mp hm1 with heq | hm1'
            · injection heq with hh _
              exact absurd (hh.trans ht2) h12
            · obtain ⟨msg, hmsg⟩ :=
                claimAll_hit swt t1 c1 s t0 rest claimed' hm1' hc1 hs1 ht0
              refine ⟨msg, ?_⟩
              unfold claimAll
              rw [if_neg hc, hcs]
              exact hmsg
          · rcases List.mem_cons.mp hm1 with heq | hm1'
            · injection heq with hh _
              exact absurd hh.symm ht1
            rcases List.mem_cons.mp hm2 with heq | hm2'
            · injection heq with hh _
              exact absurd hh.symm ht2
            obtain ⟨msg, hmsg⟩ := ih claimed' hm1' hm2' hnd'
            refine ⟨msg, ?_⟩
            unfold claimAll
            rw [if_neg hc, hcs]
            exact hmsg

/-- C7 (amended): provided the earlier validation checks pass (shard count in
range, director tag with non-zero count), the replica spec has duplicate-free
keys (a `std::map`) and the snapshot's server sets are duplicate-free
(`std::set`s), two distinct tags with non-zero counts sharing a server make
`validate_params` fail, and the error message names two distinct non-zero
tags that share a server, together with such a shared server. -/
theorem c7_overlap_validation_amended
    (params : table_generate_config_params_t)
    (swt : List (name_string_t × List name_string_t))
    (hs0 : params.num_shards ≠ 0) (hs32 : ¬ 32 < params.num_shards)
    (hdir : ((params.num_replicas.lookup params.director_tag).getD 0) ≠ 0)
    (hkeys : (params.num_replicas.map (·.1)).Nodup)
    (hsets : ∀ t, ((swt.lookup t).getD [] : List name_string_t).Nodup)
    (t1 t2 : name_string_t) (c1 c2 : Nat) (s : name_string_t)
    (h12 : t1 ≠ t2)
    (hl1 : params.num_replicas.lookup t1 = some c1) (hc1 : c1 ≠ 0)
    (hl2 : params.num_replicas.lookup t2 = some c2) (hc2 : c2 ≠ 0)
    (hs1 : s ∈ (swt.lookup t1).getD [])
    (hs2 : s ∈ (swt.lookup t2).getD []) :
    ∃ msg t1' t2' s', validate_params params swt = some msg ∧
      t1' ≠ t2' ∧
      (∃ c, params.num_replicas.lookup t1' = some c ∧ c ≠ 0) ∧
      (∃ c, params.num_replicas.lookup t2' = some c ∧ c ≠ 0) ∧
      s' ∈ (swt.lookup t1').getD [] ∧ s' ∈ (swt.lookup t2').getD [] ∧
      strContains msg t1' = true ∧ strContains msg t2' = true ∧
      strContains msg s' = true := by
  obtain ⟨msg, hmsg⟩ := claimAll_overlap_error swt t1 t2 c1 c2 s h12 hc1 hc2
    hs1 hs2 params.num_replicas [] (lookup_mem hl1) (lookup_mem hl2) hkeys
  obtain ⟨t1', t2', s', hm, hne, hL1, hL2, hin1, hin2⟩ :=
    claimAll_error_props params.num_replicas swt hsets params.num_replicas []
      msg hmsg (lookup_self_of_nodup params.num_replicas hkeys) hkeys
      (fun s0 t0 hl => by simp [List.lookup] at hl)
  refine ⟨msg, t1', t2', s', ?_, hne, hL1, hL2, hin1, hin2, ?_, ?_, ?_⟩
  · unfold validate_params
    rw [if_neg hs0, if_neg hs32, if_neg hdir, hmsg]
  · rw [hm]
    exact (msgOverlap_mentions t1' t2' s').1
  · rw [hm]
    exact (msgOverlap_mentions t1' t2' s').2.1
  · rw [hm]
    exact (msgOverlap_mentions t1' t2' s').2.2

/-- Parameters for the C7 counterexample: the overlap of `t1` and `t2` is
present, but `num_shards = 0` makes validation fail earlier with a message
that names neither tag nor the shared server. -/
def paramsC7 : table_generate_config_params_t :=
  { num_shards := 0, num_replicas := [("t1", 1), ("t2", 1)],
    director_tag := "t1" }

/-- The snapshot for the C7 theorems: tags `t1` and `t2` both contain server
`X`. -/
def swtC7 : List (name_string_t × List name_string_t) :=
  [("t1", ["X"]), ("t2", ["X"])]

/-- C7 (counterexample): with two distinct count-1 tags sharing server `X`
but `num_shards = 0`, validation fails with the shard-count message, which
contains neither tag name nor the shared server's name — refuting the claim
that the returned message always names both tags and a shared server. -/
theorem c7_counterexample :
    ("t1" : name_string_t) ≠ "t2" ∧ (1 : Nat) ≠ 0 ∧
    "X" ∈ ((swtC7.lookup "t1").getD [] : List name_string_t) ∧
    "X" ∈ ((swtC7.lookup "t2").getD [] : List name_string_t) ∧
    validate_params paramsC7 swtC7 = some msgNoShard ∧
    strContains msgNoShard "t1" = false ∧
    strContains msgNoShard "t2" = false ∧
    strContains msgNoShard "X" = false := by
  refine ⟨by decide, by decide, by decide, by decide, by decide, by decide,
    by decide, by decide⟩

/-- Parameters for the C7 witness: same overlap, with the earlier checks
passing. -/
def paramsC7b : table_generate_config_params_t :=
  { num_shards := 1, num_replicas := [("t1", 1), ("t2", 1)],
    director_tag := "t1" }

/-- Witness for the amended C7 at the concrete overlapping snapshot. -/
theorem c7_overlap_validation_amended_witness :
    ∃ msg t1' t2' s', validate_params paramsC7b swtC7 = some msg ∧
      t1' ≠ t2' ∧
      (∃ c, paramsC7b.num_replicas.lookup t1' = some c ∧ c ≠ 0) ∧
      (∃ c, paramsC7b.num_replicas.lookup t2' = some c ∧ c ≠ 0) ∧
      s' ∈ (swtC7.lookup t1').getD [] ∧ s' ∈ (swtC7.lookup t2').getD [] ∧
      strContains msg t1' = true ∧ strContains msg t2' = true ∧
      strContains msg s' = true :=
  c7_overlap_validation_amended paramsC7b swtC7 (by decide) (by decide)
    (by decide) (by decide) (fun t => by
      unfold swtC7
      by_cases h1 : t = "t1"
      · subst h1; decide
      · by_cases h2 : t = "t2"
        · subst h2; decide
        · have e1 : (t == "t1") = false := beq_eq_false_iff_ne.mpr h1
          have e2 : (t == "t2") = false := beq_eq_false_iff_ne.mpr h2
          rw [List.lookup_cons, e1, List.lookup_cons, e2]
          simp [List.lookup])
    "t1" "t2" 1 1 "X" (by decide) (by decide) (by decide) (by decide)
    (by decide) (by decide) (by decide)
